import Mathlib

/-!
# YouTube sentiment popup: comment ingestion and sentiment aggregation

A shallow embedding of the core of `yt-chrome-plugin-frontend/popup.js`
(and of the same passes in `popup_old.js`): the aggregation pass of the
`DOMContentLoaded` handler, `fetchComments` and `getSentimentPredictions`.

Conventions of the embedding.

* JavaScript integers that the code counts or sums (array lengths, word
  counts, sums of sentiment values) are `Nat` / `Int`; binary64 represents
  them exactly below `2 ^ 53`, and an array holds fewer than `2 ^ 32` elements.
* A number that may be `NaN` is an `Option`, `none` standing for `NaN`.
* Every operation of the code that rounds (`/`, `+`, `*` on non-integers,
  `parseFloat`) goes through `toDouble`, round-to-nearest-even onto binary64.
-/

namespace YtSentiment

/-! ## Data model -/

/-- The record pushed by `fetchComments`: `{ text, timestamp, authorId }`. -/
structure Comment where
  text : String
  timestamp : String
  authorId : String
deriving DecidableEq, Repr

/-- The `sentiment` field of a prediction item, a JSON string or a JSON integer. -/
inductive Sentiment where
  | str (s : String)
  | int (n : Int)
deriving DecidableEq, Repr

/-- An item of the classifier's response: `{ comment, sentiment, timestamp }`. -/
structure ScoredComment where
  comment : String
  sentiment : Sentiment
  timestamp : String
deriving DecidableEq, Repr

/-- An entry of `sentimentData`; `sentiment` is the result of `parseInt`
(`none` is `NaN`). -/
structure TrendPoint where
  timestamp : String
  sentiment : Option Int
deriving DecidableEq, Repr

/-- The constant `MAX_COMMENTS` of popup.js. -/
def MAX_COMMENTS : Nat := 1000

/-! ## JavaScript primitives used by the aggregation pass -/

/-- The characters matched by `\s` in a regular expression, which are also the
characters `parseInt` skips at the start of its argument (WhiteSpace and
LineTerminator of ECMAScript). -/
def isJsWhitespace (c : Char) : Bool :=
  let n := c.toNat
  n = 9 || n = 10 || n = 11 || n = 12 || n = 13 || n = 32 || n = 160 ||
  n = 5760 || (8192 ≤ n && n ≤ 8202) || n = 8232 || n = 8233 || n = 8239 ||
  n = 8287 || n = 12288 || n = 65279

/-- Value of a character as a digit of the given radix (10 or 16). -/
def digitValue (radix : Nat) (c : Char) : Option Nat :=
  let n := c.toNat
  if 48 ≤ n ∧ n ≤ 57 then some (n - 48)
  else if radix = 16 ∧ 97 ≤ n ∧ n ≤ 102 then some (n - 87)
  else if radix = 16 ∧ 65 ≤ n ∧ n ≤ 70 then some (n - 55)
  else none

/-- Reads the longest run of digits at the head of the input; `acc` is the
value read so far and `seen` tells whether a digit was read. -/
def readDigits (radix : Nat) : List Char → Nat → Bool → Option Nat
  | [], acc, seen => if seen then some acc else none
  | c :: cs, acc, seen =>
    match digitValue radix c with
    | some d => readDigits radix cs (acc * radix + d) true
    | none => if seen then some acc else none

/-- The call `parseInt(s)` on a string, no radix given: leading white space is
skipped, a sign is read, `0x` / `0X` selects radix 16, then the longest run
of digits is read; `none` (`NaN`) when there is no digit. -/
def parseIntString (s : String) : Option Int :=
  let cs := s.toList.dropWhile isJsWhitespace
  let (neg, cs) :=
    match cs with
    | c :: rest => if c.toNat = 45 then (true, rest) else if c.toNat = 43 then (false, rest)
      else (false, cs)
    | [] => (false, cs)
  let (radix, cs) :=
    match cs with
    | z :: x :: rest =>
      if z.toNat = 48 ∧ (x.toNat = 120 ∨ x.toNat = 88) then (16, rest) else (10, cs)
    | _ => (10, cs)
  (readDigits radix cs 0 false).map fun n => if neg then -(n : Int) else (n : Int)

/-- The conversion `String(v)` of a sentiment value, which is also the property key
used by `sentimentCounts[item.sentiment]` (integers below `10 ^ 21` print
in decimal). -/
def propertyKey : Sentiment → String
  | .str s => s
  | .int n => toString n

/-- The call `parseInt(item.sentiment)`: the argument is first converted to a string. -/
def parseInt (v : Sentiment) : Option Int :=
  parseIntString (propertyKey v)

/-- A JavaScript object whose property values are numbers obtained by `++`
from `0` or from `undefined`: a list of keys with their values in insertion
order, `none` standing for `NaN`. -/
abbrev CountObject := List (String × Option Nat)

/-- The statement `obj[key]++`: an existing property is incremented (`NaN`
stays `NaN`); on a missing key `undefined` increments to `NaN`, which is
stored under the new key. -/
def incrementKey : CountObject → String → CountObject
  | [], key => [(key, none)]
  | (k, v) :: rest, key =>
    if k = key then (k, v.map (· + 1)) :: rest else (k, v) :: incrementKey rest key

/-- Property read `obj[key]`; the outer `none` is `undefined`. -/
def getKey : CountObject → String → Option (Option Nat)
  | [], _ => none
  | (k, v) :: rest, key => if k = key then some v else getKey rest key

/-- Sum of the values of the object, `NaN` absorbing. -/
def sumValues : CountObject → Option Nat
  | [] => some 0
  | (_, v) :: rest => do
    let a ← v
    let b ← sumValues rest
    pure (a + b)

/-! ## The aggregation pass (popup.js lines 107-119) -/

/-- The three locals the `forEach` over `predictions` updates. -/
structure PassState where
  sentimentCounts : CountObject
  sentimentData : List TrendPoint
  totalSentimentScore : Option Int
deriving DecidableEq, Repr

/-- The locals as initialised before the pass:
`{ "1": 0, "0": 0, "-1": 0 }`, `[]`, `0`. -/
def initialPass : PassState :=
  { sentimentCounts := [("1", some 0), ("0", some 0), ("-1", some 0)]
    sentimentData := []
    totalSentimentScore := some 0 }

/-- The body of the `forEach` callback for one item. -/
def passStep (st : PassState) (item : ScoredComment) : PassState :=
  let s := parseInt item.sentiment
  { sentimentCounts := incrementKey st.sentimentCounts (propertyKey item.sentiment)
    totalSentimentScore := do
      let t ← st.totalSentimentScore
      let v ← s
      pure (t + v)
    sentimentData := st.sentimentData ++ [{ timestamp := item.timestamp, sentiment := s }] }

/-- The loop `predictions.forEach(...)` run from the initial locals. -/
def aggregatePass (predictions : List ScoredComment) : PassState :=
  predictions.foldl passStep initialPass

/-- The sentiment is one of the labels -1, 0, 1, as a string or as an integer. -/
def isLabel (v : Sentiment) : Prop :=
  v = .str "1" ∨ v = .str "0" ∨ v = .str "-1" ∨ v = .int 1 ∨ v = .int 0 ∨ v = .int (-1)

instance (v : Sentiment) : Decidable (isLabel v) := by
  unfold isLabel; infer_instance

/-! ## Numbers: binary64 rounding, `toFixed(2)`, `parseFloat` -/

/-- Nearest integer to a rational, ties to the even neighbour. -/
def roundHalfEven (t : ℚ) : ℤ :=
  let f := ⌊t⌋
  if t - f < 1 / 2 then f
  else if 1 / 2 < t - f then f + 1
  else if f % 2 = 0 then f else f + 1

/-- Exponent of the binade of a non-zero rational in binary64: the `e` with
`2 ^ e ≤ |q| < 2 ^ (e + 1)`, never below `-1022` (subnormal numbers share the
spacing of the lowest binade). -/
def binadeExp (q : ℚ) : ℤ :=
  max (Int.log 2 |q|) (-1022)

/-- Spacing of the binary64 numbers around `q`: 53 significant bits. -/
def ulp (q : ℚ) : ℚ :=
  (2 : ℚ) ^ (binadeExp q - 52)

/-- The binary64 number nearest to `q`, ties to even: the rounding every
arithmetic operation of the code applies to its exact result. Results of
magnitude `2 ^ 1024` and above (`Infinity` in JavaScript) do not occur: the
code only divides integers below `2 ^ 53` by a positive integer and rescales
values of magnitude at most 1. -/
def toDouble (q : ℚ) : ℚ :=
  if q = 0 then 0 else roundHalfEven (q / ulp q) * ulp q

/-- A JavaScript number: a finite value, `NaN`, or an infinity. -/
inductive JsNum where
  | fin (q : ℚ)
  | nan
  | inf (negative : Bool)
deriving DecidableEq

/-- The quotient `a / b` of an integer-valued number (`none` is `NaN`) by an
array length. -/
def jsDivide (a : Option Int) (b : Nat) : JsNum :=
  match a with
  | none => .nan
  | some a =>
    if b = 0 then (if a = 0 then .nan else .inf (decide (a < 0)))
    else .fin (toDouble ((a : ℚ) / (b : ℚ)))

/-- The string returned by `x.toFixed(2)`, by its shape:
`dec negative n` is the decimal numeral with integer part `n / 100` and the two
fraction digits `n % 100`, preceded by `-` when `negative`;
`exp q` is the exponent form used for `|x| ≥ 10 ^ 21`, denoting `q`. -/
inductive Fixed2 where
  | dec (negative : Bool) (n : Nat)
  | nan
  | inf (negative : Bool)
  | exp (q : ℚ)
deriving DecidableEq

/-- The integer `n` for which `n / 100 - x` is as close to zero as possible,
the larger one when there are two (`Number.prototype.toFixed`, for `x ≥ 0`). -/
def nearestHundredths (x : ℚ) : Nat :=
  ⌊100 * x + 1 / 2⌋.toNat

/-- The call `x.toFixed(2)`: a negative `x` is negated and the sign is written in
front of the digits. -/
def toFixed2 : JsNum → Fixed2
  | .nan => .nan
  | .inf s => .inf s
  | .fin x =>
    if (10 : ℚ) ^ 21 ≤ |x| then .exp x
    else if x < 0 then .dec true (nearestHundredths (-x))
    else .dec false (nearestHundredths x)

/-- Two decimal digits of a number below 100. -/
def twoDigits (n : Nat) : String :=
  (if n < 10 then "0" else "") ++ toString n

/-- The characters of the string, for the decimal shapes, and of
`NaN` / `Infinity`; the exponent form is not spelled out. -/
def Fixed2.render : Fixed2 → String
  | .dec s n => (if s then "-" else "") ++ toString (n / 100) ++ "." ++ twoDigits (n % 100)
  | .nan => "NaN"
  | .inf s => (if s then "-" else "") ++ "Infinity"
  | .exp _ => "<exponent form>"

/-- The number a `toFixed(2)` string denotes, before any rounding. -/
def Fixed2.value : Fixed2 → Option ℚ
  | .dec s n => some ((if s then -1 else 1) * ((n : ℚ) / 100))
  | .exp q => some q
  | .nan => none
  | .inf _ => none

/-- The call `parseFloat(s)` on a string produced by `toFixed(2)`: the binary64
nearest to the numeral (`-0.00` parses to a zero). -/
def parseFloat : Fixed2 → JsNum
  | .dec s n => .fin (toDouble ((if s then -1 else 1) * ((n : ℚ) / 100)))
  | .exp q => .fin q
  | .nan => .nan
  | .inf s => .inf s

/-- Binary64 addition of a finite constant. -/
def JsNum.add (x : JsNum) (c : ℚ) : JsNum :=
  match x with
  | .fin q => .fin (toDouble (q + c))
  | .nan => .nan
  | .inf s => .inf s

/-- Binary64 division by a positive finite constant. -/
def JsNum.div (x : JsNum) (c : ℚ) : JsNum :=
  match x with
  | .fin q => .fin (toDouble (q / c))
  | .nan => .nan
  | .inf s => .inf s

/-- Binary64 multiplication by a positive finite constant. -/
def JsNum.mul (x : JsNum) (c : ℚ) : JsNum :=
  match x with
  | .fin q => .fin (toDouble (q * c))
  | .nan => .nan
  | .inf s => .inf s

/-! ## Summary metrics (popup.js lines 122-130) -/

/-- The call `text.split(/\s+/)`: the pieces between maximal runs of white space,
an empty piece at either end when the text starts or ends with white space.
`inRun` holds while the scan is inside a separator, `cur` is the piece being
read. -/
def splitGo : Bool → List Char → List Char → List (List Char)
  | _, cur, [] => [cur]
  | inRun, cur, c :: cs =>
    if isJsWhitespace c then
      if inRun then splitGo true cur cs else cur :: splitGo true [] cs
    else splitGo false (cur ++ [c]) cs

/-- The call `text.split(/\s+/)` on a string. -/
def splitWhitespace (text : String) : List (List Char) :=
  splitGo false [] text.toList

/-- The expression `c.text.split(/\s+/).filter(w => w).length`. -/
def wordCount (text : String) : Nat :=
  ((splitWhitespace text).filter fun w => !w.isEmpty).length

/-- The reduction `comments.reduce((sum, c) => sum + words(c), 0)`. -/
def totalWords (comments : List Comment) : Nat :=
  comments.foldl (fun sum c => sum + wordCount c.text) 0

/-- The call `set.add(x)` on a `Set` kept in insertion order. -/
def setAdd (set : List String) (x : String) : List String :=
  if x ∈ set then set else set ++ [x]

/-- The expression `new Set(comments.map(c => c.authorId)).size`. -/
def uniqueCommenters (comments : List Comment) : Nat :=
  ((comments.map fun c => c.authorId).foldl setAdd []).length

/-- The five summary values. -/
structure SummaryMetrics where
  totalComments : Nat
  uniqueCommenters : Nat
  avgWordLength : Fixed2
  avgSentimentScore : Fixed2
  normalizedSentimentScore : Fixed2
deriving DecidableEq

/-- The expression `(totalSentimentScore / totalComments).toFixed(2)`. -/
def avgSentimentScoreOf (totalSentimentScore : Option Int) (totalComments : Nat) : Fixed2 :=
  toFixed2 (jsDivide totalSentimentScore totalComments)

/-- The expression `(((parseFloat(avgSentimentScore) + 1) / 2) * 10).toFixed(2)`. -/
def normalizedSentimentScoreOf (avgSentimentScore : Fixed2) : Fixed2 :=
  toFixed2 ((((parseFloat avgSentimentScore).add 1).div 2).mul 10)

/-- Lines 122-130: the summary metrics from the fetched comments and the sum
the pass computed. -/
def summaryMetrics (comments : List Comment) (totalSentimentScore : Option Int) :
    SummaryMetrics :=
  let totalComments := comments.length
  let avg := avgSentimentScoreOf totalSentimentScore totalComments
  { totalComments := totalComments
    uniqueCommenters := uniqueCommenters comments
    avgWordLength := toFixed2 (jsDivide (some (totalWords comments : Int)) totalComments)
    avgSentimentScore := avg
    normalizedSentimentScore := normalizedSentimentScoreOf avg }

/-- What the aggregation step hands to the rendering code. -/
structure Aggregation where
  sentimentCounts : CountObject
  sentimentData : List TrendPoint
  metrics : SummaryMetrics
deriving DecidableEq

/-- Lines 106-130 of popup.js: the pass over `predictions`, then the summary
metrics over `comments`. The two arrays are never compared. -/
def aggregate (comments : List Comment) (predictions : List ScoredComment) : Aggregation :=
  let st := aggregatePass predictions
  { sentimentCounts := st.sentimentCounts
    sentimentData := st.sentimentData
    metrics := summaryMetrics comments st.totalSentimentScore }

/-- The sum as popup_old.js computes it, by a `reduce` of its own before the
`forEach`. -/
def totalSentimentScoreOld (predictions : List ScoredComment) : Option Int :=
  predictions.foldl (fun sum item => do
    let t ← sum
    let v ← parseInt item.sentiment
    pure (t + v)) (some 0)

/-! ## `fetchComments` (popup.js lines 199-228) -/

/-- The fields the loop reads from `item.snippet.topLevelComment.snippet`;
`authorChannelId` is `authorChannelId?.value`, `none` when either is absent. -/
structure RawSnippet where
  textOriginal : String
  publishedAt : String
  authorChannelId : Option String
deriving DecidableEq, Repr

/-- The parsed body of one page: `data.items` (which may be absent) and
`data.nextPageToken`. An item is `none` when its snippet path is missing, so
that reading it throws. -/
structure Page where
  items : Option (List (Option RawSnippet))
  nextPageToken : Option String
deriving DecidableEq, Repr

/-- What one page request yields: `failure` when `fetch` or `resp.json()`
rejects (network or parse error). -/
inductive Response where
  | failure
  | ok (page : Page)
deriving DecidableEq, Repr

/-- The record pushed for one item; `||` replaces an absent or empty author
channel id by `"Unknown"`. -/
def toComment (s : RawSnippet) : Comment :=
  { text := s.textOriginal
    timestamp := s.publishedAt
    authorId :=
      match s.authorChannelId with
      | some v => if v = "" then "Unknown" else v
      | none => "Unknown" }

/-- The loop `data.items.forEach(...)`: items are pushed in order; the flag tells
whether an item threw, in which case the items before it stay pushed. -/
def pushItems (comments : List Comment) : List (Option RawSnippet) → List Comment × Bool
  | [] => (comments, false)
  | none :: _ => (comments, true)
  | some s :: rest => pushItems (comments ++ [toComment s]) rest

/-- Fragment appended to `outputDiv` by the `catch` of `fetchComments`. -/
def fetchErrorMessage : String := "<p>Error fetching comments.</p>"

/-- What `fetchComments` leaves behind: the returned array, the page tokens of
the requests it issued (in order), and the fragments it appended to
`outputDiv`. -/
structure FetchResult where
  comments : List Comment
  requests : List String
  out : List String
deriving DecidableEq, Repr

/-- The `while` loop of `fetchComments` together with the `catch` and the
`return`. `api k` is the response to the `k`-th request (counted from 0),
`pageToken` and `comments` are the loop variables, `requests` the tokens sent
so far. Each unit of fuel pays for one test of the loop condition; `none` is
returned when the fuel runs out. -/
def fetchLoop (api : Nat → Response) :
    Nat → Nat → String → List Comment → List String → Option FetchResult
  | 0, _, _, _, _ => none
  | fuel + 1, k, pageToken, comments, requests =>
    if comments.length < MAX_COMMENTS then
      match api k with
      | .failure =>
        some { comments := comments, requests := requests ++ [pageToken],
               out := [fetchErrorMessage] }
      | .ok data =>
        let pushed :=
          match data.items with
          | some items => pushItems comments items
          | none => (comments, false)
        if pushed.2 then
          some { comments := pushed.1, requests := requests ++ [pageToken],
                 out := [fetchErrorMessage] }
        else
          match data.nextPageToken with
          | some next =>
            if next = "" then
              some { comments := pushed.1, requests := requests ++ [pageToken], out := [] }
            else fetchLoop api fuel (k + 1) next pushed.1 (requests ++ [pageToken])
          | none =>
            some { comments := pushed.1, requests := requests ++ [pageToken], out := [] }
    else some { comments := comments, requests := requests, out := [] }

/-- The function `fetchComments`: the loop started with `comments = []` and
`pageToken = ""`. -/
def fetchComments (api : Nat → Response) (fuel : Nat) : Option FetchResult :=
  fetchLoop api fuel 0 "" [] []

/-- Number of items in a response (0 for a failure or a page without `items`). -/
def Response.size : Response → Nat
  | .failure => 0
  | .ok data =>
    match data.items with
    | some items => items.length
    | none => 0

/-- The response to a well-formed page: every item readable. -/
def pageResponse (items : List RawSnippet) (next : Option String) : Response :=
  .ok { items := some (items.map some), nextPageToken := next }

/-! ## `getSentimentPredictions` (popup.js lines 230-247) -/

/-- What the classification request yields: `rejected` when `fetch` or
`resp.json()` rejects, `success` for `resp.ok` with the parsed array,
`httpError` for a non-success status with the parsed body's `error` field. -/
inductive PredictResponse where
  | rejected (message : String)
  | success (result : List ScoredComment)
  | httpError (status : Nat) (error : Option String)
deriving DecidableEq, Repr

/-- Fragment appended to `outputDiv` by the `catch` of `getSentimentPredictions`. -/
def predictionErrorMessage : String := "<p>Error fetching sentiment predictions.</p>"

/-- What `getSentimentPredictions` leaves behind: the returned value (`none` is
`null`), the messages of the errors passed to `console.error`, and the
fragments appended to `outputDiv`. -/
structure PredictResult where
  predictions : Option (List ScoredComment)
  console : List String
  out : List String
deriving DecidableEq, Repr

/-- The function `getSentimentPredictions` of popup.js. On a non-success status
it throws `new Error(result.error)`, whose message is empty when the field is
absent; the `catch` logs the error and appends the fixed fragment. -/
def getSentimentPredictions (resp : PredictResponse) : PredictResult :=
  match resp with
  | .success result => { predictions := some result, console := [], out := [] }
  | .rejected message =>
    { predictions := none, console := [message], out := [predictionErrorMessage] }
  | .httpError _ error =>
    { predictions := none, console := [error.getD ""], out := [predictionErrorMessage] }

/-- The same function in popup_old.js, which throws
`new Error(result.error || "Error fetching predictions")`. -/
def getSentimentPredictionsOld (resp : PredictResponse) : PredictResult :=
  match resp with
  | .success result => { predictions := some result, console := [], out := [] }
  | .rejected message =>
    { predictions := none, console := [message], out := [predictionErrorMessage] }
  | .httpError _ error =>
    { predictions := none
      console := [match error with
        | some m => if m = "" then "Error fetching predictions" else m
        | none => "Error fetching predictions"]
      out := [predictionErrorMessage] }

/-! ## The pipeline (popup.js lines 93-130) -/

/-- What a run leaves behind: the fragments appended to `outputDiv` from line 93
on (the rendering of the aggregation apart), the messages logged with
`console.error` by the classifier client, and the aggregation when one was
computed. -/
structure Outcome where
  out : List String
  console : List String
  aggregation : Option Aggregation
deriving DecidableEq

/-- Fragment appended when no comment was fetched. -/
def noCommentsMessage : String := "<p>No comments found.</p>"

/-- Fragment appended before the classification request. -/
def fetchedMessage (n : Nat) : String :=
  "<p>Fetched " ++ toString n ++ " comments. Running ML prediction…</p>"

/-- Lines 93-130 of the handler: fetch, stop on an empty array, classify, stop on
`null`, aggregate. `classifier` gives the response of the classification
endpoint to the batch it is sent. -/
def pipeline (api : Nat → Response) (classifier : List Comment → PredictResponse)
    (fuel : Nat) : Option Outcome :=
  match fetchComments api fuel with
  | none => none
  | some fetched =>
    if fetched.comments.length = 0 then
      some { out := fetched.out ++ [noCommentsMessage], console := [], aggregation := none }
    else
      let out := fetched.out ++ [fetchedMessage fetched.comments.length]
      let predicted := getSentimentPredictions (classifier fetched.comments)
      match predicted.predictions with
      | none =>
        some { out := out ++ predicted.out, console := predicted.console, aggregation := none }
      | some predictions =>
        some { out := out ++ predicted.out, console := predicted.console,
               aggregation := some (aggregate fetched.comments predictions) }

/-- The characters of `m` stand at the head of the list. -/
def startsWith : List Char → List Char → Bool
  | _, [] => true
  | [], _ :: _ => false
  | c :: cs, d :: ds => c == d && startsWith cs ds

/-- The characters of `m` occur somewhere in the list, consecutively. -/
def occursIn (m : List Char) : List Char → Bool
  | [] => m.isEmpty
  | c :: cs => startsWith (c :: cs) m || occursIn m cs

/-- A fragment shows the text `m` when `m` occurs in it. -/
def showsText (fragment m : String) : Bool :=
  occursIn m.toList fragment.toList

/-- Some fragment of the output shows the text `m`. -/
def reportsToUser (out : List String) (m : String) : Bool :=
  out.any fun fragment => showsText fragment m

/-! ## Vocabulary of the claims on `fetchComments` -/

/-- Every item of the page can be read (no access throws). -/
def Page.readable (p : Page) : Bool :=
  match p.items with
  | some items => items.all Option.isSome
  | none => true

/-- The page carries a non-empty `nextPageToken`. -/
def Page.hasNext (p : Page) : Bool :=
  match p.nextPageToken with
  | some t => t != ""
  | none => false

/-- The normalized records of the readable items of a page, in item order. -/
def Page.records (p : Page) : List Comment :=
  match p.items with
  | some items => items.filterMap fun i => i.map toComment
  | none => []

/-- The normalized records of a list of pages, in page order then item order. -/
def allRecords (pages : List Page) : List Comment :=
  (pages.map Page.records).flatten

/-- Pages that all lead on: every one readable, with a non-empty token. -/
def leadsOn (pages : List Page) : Bool :=
  pages.all fun p => p.readable && p.hasNext

/-- A well-formed chain of pages: every page readable, every page but the last
with a non-empty `nextPageToken`, the last with none. -/
def isChain : List Page → Bool
  | [] => false
  | [p] => p.readable && p.nextPageToken == none
  | p :: q :: rest => p.readable && p.hasNext && isChain (q :: rest)

/-- The stream that answers request `k` with the `k`-th page and fails afterwards. -/
def streamOf (pages : List Page) : Nat → Response :=
  fun k =>
    match pages[k]? with
    | some p => .ok p
    | none => .failure

/-- A snippet used in examples. -/
def sampleSnippet : RawSnippet :=
  { textOriginal := "nice", publishedAt := "2024-01-01T00:00:00Z", authorChannelId := some "UC1" }

/-- A full page of 100 readable items that leads on. -/
def fullPage : Page :=
  { items := some (List.replicate 100 (some sampleSnippet)), nextPageToken := some "next" }

/-- A page of one readable item that leads on. -/
def shortPage : Page :=
  { items := some [some sampleSnippet], nextPageToken := some "next" }

/-- A stream whose first page holds one item and every later page 100 items,
each page carrying a token. -/
def overshootStream : Nat → Response :=
  fun k => if k = 0 then .ok shortPage else .ok fullPage

/-- Counts the tokens of a text: a token starts at every character that is not
white space and follows white space or the start; `afterSpace` tells whether
the scan is at the start or just after white space. -/
def countTokens : Bool → List Char → Nat
  | _, [] => 0
  | afterSpace, c :: cs =>
    if isJsWhitespace c then countTokens true cs
    else (if afterSpace then 1 else 0) + countTokens false cs

/-- Number of non-empty tokens of a text delimited by runs of white space, as
the specification words the word count. -/
def tokenCount (text : String) : Nat :=
  countTokens true text.toList

/-- A page without items that still carries a token. -/
def emptyPage : Page :=
  { items := some [], nextPageToken := some "next" }

/-- A stream of empty pages that all carry a token. -/
def foreverEmptyStream : Nat → Response :=
  fun _ => .ok emptyPage

/-- A stream of `n` empty pages that carry a token, followed by pages without
items and without token. -/
def stallingStream (n : Nat) : Nat → Response :=
  fun k => if k < n then .ok emptyPage else .ok { items := none, nextPageToken := none }

/-- The response lets the loop advance: a failure, a page without a non-empty
token, or a page holding at least one item. -/
def Response.progresses (r : Response) : Bool :=
  match r with
  | .failure => true
  | .ok p => !p.hasNext || decide (1 ≤ r.size)

/-- The normalized record the data model of the specification prescribes for a
raw item: its text, its publish timestamp and its author channel id, the
literal "Unknown" standing in for an absent or empty id. Written from the data
model, not from `toComment`. -/
def normalizedRecord (s : RawSnippet) : Comment :=
  { text := s.textOriginal
    timestamp := s.publishedAt
    authorId := (s.authorChannelId.filter fun v => v != "").getD "Unknown" }

/-- The readable raw items of a page, in item order. -/
def Page.snippets (p : Page) : List RawSnippet :=
  match p.items with
  | some items => items.filterMap id
  | none => []

/-- The readable raw items of a list of pages, in page order then item order. -/
def allSnippets (pages : List Page) : List RawSnippet :=
  (pages.map Page.snippets).flatten

/-- Number of items the pages hold in all. -/
def totalItems (pages : List Page) : Nat :=
  (pages.map fun p => (Response.ok p).size).sum

/-- The token a page hands out for the next request (empty when it has none). -/
def Page.tokenOut (p : Page) : String :=
  p.nextPageToken.getD ""

/-- The page tokens a run over the pages has to send, request by request: the
empty token first, then the token each page handed out. -/
def requestTokens (pages : List Page) : List String :=
  "" :: pages.map Page.tokenOut

/-- A snippet without author channel id, used in examples. -/
def anonymousSnippet : RawSnippet :=
  { textOriginal := "first", publishedAt := "2024-01-02T00:00:00Z", authorChannelId := none }

/-- A chain of two pages used in examples: two items and a token, then one item
and no token. -/
def samplePages : List Page :=
  [{ items := some [some sampleSnippet, some anonymousSnippet], nextPageToken := some "next" },
   { items := some [some sampleSnippet], nextPageToken := none }]

/-- The key an item increments. -/
def keyOf (x : ScoredComment) : String := propertyKey x.sentiment

/-- The rational `c` is a binary64 number: an integer multiple of the spacing of
its binade. -/
def IsDouble (c : ℚ) : Prop := ∃ m : ℤ, c = m * ulp c

/-! ## Lemmas on binary64 rounding -/

theorem roundHalfEven_le {t : ℚ} {N : ℤ} (h : t ≤ N) : roundHalfEven t ≤ N := by
  have h1 := Int.floor_le t
  have hf : ⌊t⌋ ≤ N := by exact_mod_cast h1.trans h
  unfold roundHalfEven
  simp only
  split_ifs with a b c
  · exact hf
  · by_contra hc
    have : N ≤ ⌊t⌋ := by omega
    have : (N : ℚ) ≤ ⌊t⌋ := by exact_mod_cast this
    linarith
  · exact hf
  · by_contra hc
    have : N ≤ ⌊t⌋ := by omega
    have : (N : ℚ) ≤ ⌊t⌋ := by exact_mod_cast this
    linarith

theorem le_roundHalfEven {t : ℚ} {N : ℤ} (h : (N : ℚ) ≤ t) : N ≤ roundHalfEven t := by
  have hf : N ≤ ⌊t⌋ := Int.le_floor.mpr h
  unfold roundHalfEven
  simp only
  split_ifs <;> omega

theorem roundHalfEven_intCast (N : ℤ) : roundHalfEven (N : ℚ) = N := by
  unfold roundHalfEven
  simp

theorem roundHalfEven_neg (t : ℚ) : roundHalfEven (-t) = -roundHalfEven t := by
  have h1 := Int.floor_le t
  have h2 := Int.lt_floor_add_one t
  by_cases hr : (⌊t⌋ : ℚ) = t
  · have e1 : -t = ((-⌊t⌋ : ℤ) : ℚ) := by push_cast; linarith
    have e2 : roundHalfEven t = ⌊t⌋ := by
      conv_lhs => rw [← hr]
      exact roundHalfEven_intCast _
    rw [e1, roundHalfEven_intCast, e2]
  · have hlt : (⌊t⌋ : ℚ) < t := lt_of_le_of_ne h1 hr
    have hf : ⌊-t⌋ = -⌊t⌋ - 1 := by
      rw [Int.floor_eq_iff]; push_cast; constructor <;> linarith
    unfold roundHalfEven
    simp only [hf]
    push_cast
    split_ifs <;> first | omega | (exfalso; linarith)

theorem ulp_pos (q : ℚ) : 0 < ulp q := by
  unfold ulp; positivity

theorem binadeExp_eq {q : ℚ} {e : ℤ} (h1 : (2 : ℚ) ^ e ≤ |q|) (h2 : |q| < (2 : ℚ) ^ (e + 1))
    (he : -1022 ≤ e) : binadeExp q = e := by
  have hpos : 0 < |q| := lt_of_lt_of_le (by positivity) h1
  have ha : e ≤ Int.log 2 |q| := (Int.zpow_le_iff_le_log (by norm_num) hpos).mp (by exact_mod_cast h1)
  have hb : Int.log 2 |q| < e + 1 := (Int.lt_zpow_iff_log_lt (by norm_num) hpos).mp (by exact_mod_cast h2)
  unfold binadeExp
  rw [max_eq_left (by omega)]
  omega

theorem binadeExp_neg (q : ℚ) : binadeExp (-q) = binadeExp q := by
  unfold binadeExp; rw [abs_neg]

theorem ulp_neg (q : ℚ) : ulp (-q) = ulp q := by
  unfold ulp; rw [binadeExp_neg]

theorem toDouble_neg (q : ℚ) : toDouble (-q) = -toDouble q := by
  unfold toDouble
  by_cases h : q = 0
  · simp [h]
  · have h' : -q ≠ 0 := neg_ne_zero.mpr h
    rw [if_neg h, if_neg h', ulp_neg, neg_div, roundHalfEven_neg]
    push_cast; ring

theorem toDouble_nonneg {q : ℚ} (h : 0 ≤ q) : 0 ≤ toDouble q := by
  unfold toDouble
  split_ifs
  · exact le_rfl
  · have : (0 : ℤ) ≤ roundHalfEven (q / ulp q) :=
      le_roundHalfEven (by push_cast; exact div_nonneg h (ulp_pos q).le)
    have : (0 : ℚ) ≤ roundHalfEven (q / ulp q) := by exact_mod_cast this
    exact mul_nonneg this (ulp_pos q).le

theorem toDouble_of_isDouble {c : ℚ} (h : IsDouble c) : toDouble c = c := by
  obtain ⟨m, hm⟩ := h
  unfold toDouble
  split_ifs with h0
  · exact h0.symm
  · have : c / ulp c = m := by
      rw [div_eq_iff (ulp_pos c).ne']; exact hm
    rw [this, roundHalfEven_intCast]; exact hm.symm

theorem binadeExp_mono {q c : ℚ} (hq : 0 < q) (h : q ≤ c) : binadeExp q ≤ binadeExp c := by
  unfold binadeExp
  apply max_le_max _ le_rfl
  apply Int.log_mono_right (abs_pos.mpr hq.ne')
  rw [abs_of_pos hq, abs_of_pos (hq.trans_le h)]
  exact h

theorem toDouble_le_of_pos {q c : ℚ} (hq : 0 < q) (h : q ≤ c) (hc : IsDouble c) :
    toDouble q ≤ c := by
  obtain ⟨m, hm⟩ := hc
  have he := binadeExp_mono hq h
  obtain ⟨n, hn⟩ := Int.eq_ofNat_of_zero_le (sub_nonneg.mpr he)
  have hu : ulp c = ulp q * (2 : ℚ) ^ n := by
    unfold ulp
    rw [← zpow_natCast, ← zpow_add₀ (by norm_num : (2 : ℚ) ≠ 0)]
    congr 1
    omega
  have hcq : c = ((m * 2 ^ n : ℤ) : ℚ) * ulp q := by
    rw [hm] 
    conv_lhs => rw [hu]
    push_cast; ring
  have hle : q / ulp q ≤ ((m * 2 ^ n : ℤ) : ℚ) := by
    rw [div_le_iff₀ (ulp_pos q)]
    rw [← hcq]; exact h
  have := roundHalfEven_le hle
  have : (roundHalfEven (q / ulp q) : ℚ) ≤ ((m * 2 ^ n : ℤ) : ℚ) := by exact_mod_cast this
  unfold toDouble
  rw [if_neg hq.ne']
  calc (roundHalfEven (q / ulp q) : ℚ) * ulp q ≤ ((m * 2 ^ n : ℤ) : ℚ) * ulp q :=
        mul_le_mul_of_nonneg_right this (ulp_pos q).le
    _ = c := hcq.symm

theorem toDouble_zero : toDouble 0 = 0 := by simp [toDouble]

theorem toDouble_le {q c : ℚ} (h0 : 0 ≤ c) (h : q ≤ c) (hc : IsDouble c) : toDouble q ≤ c := by
  rcases lt_trichotomy q 0 with hq | hq | hq
  · have : 0 ≤ toDouble (-q) := toDouble_nonneg (by linarith)
    rw [toDouble_neg] at this
    linarith
  · rw [hq, toDouble_zero]; exact h0
  · exact toDouble_le_of_pos hq h hc

theorem abs_toDouble_le {q c : ℚ} (h : |q| ≤ c) (hc : IsDouble c) : |toDouble q| ≤ c := by
  have h0 : 0 ≤ c := (abs_nonneg q).trans h
  rw [abs_le] at h ⊢
  constructor
  · have := toDouble_le h0 (by linarith : -q ≤ c) hc
    rw [toDouble_neg] at this
    linarith
  · exact toDouble_le h0 h.2 hc

theorem isDouble_of {c : ℚ} (e m : ℤ) (h1 : (2 : ℚ) ^ e ≤ |c|) (h2 : |c| < (2 : ℚ) ^ (e + 1))
    (he : -1022 ≤ e) (hm : c = m * (2 : ℚ) ^ (e - 52)) : IsDouble c := by
  refine ⟨m, ?_⟩
  unfold ulp
  rw [binadeExp_eq h1 h2 he]
  exact hm

theorem isDouble_one : IsDouble 1 :=
  isDouble_of 0 (2 ^ 52) (by norm_num) (by norm_num) (by norm_num) (by norm_num)

theorem isDouble_two : IsDouble 2 :=
  isDouble_of 1 (2 ^ 52) (by norm_num) (by norm_num) (by norm_num) (by norm_num)

theorem isDouble_half : IsDouble (1 / 2) :=
  isDouble_of (-1) (2 ^ 52) (by norm_num [abs_of_pos]) (by norm_num [abs_of_pos]) (by norm_num) (by norm_num)

theorem isDouble_five : IsDouble 5 :=
  isDouble_of 2 (5 * 2 ^ 50) (by norm_num) (by norm_num) (by norm_num) (by norm_num)

theorem isDouble_ten : IsDouble 10 :=
  isDouble_of 3 (5 * 2 ^ 50) (by norm_num) (by norm_num) (by norm_num) (by norm_num)

theorem nearestHundredths_le {x : ℚ} {B : ℕ} (h : x ≤ B) : nearestHundredths x ≤ 100 * B := by
  unfold nearestHundredths
  have : ⌊100 * x + 1 / 2⌋ ≤ ((100 * B : ℕ) : ℤ) := by
    have h1 : ⌊100 * x + 1 / 2⌋ < ((100 * B : ℕ) : ℤ) + 1 := by
      rw [Int.floor_lt]; push_cast; linarith
    omega
  omega

theorem nearestHundredths_natCast_div (n : ℕ) : nearestHundredths ((n : ℚ) / 100) = n := by
  unfold nearestHundredths
  have : ⌊100 * ((n : ℚ) / 100) + 1 / 2⌋ = (n : ℤ) := by
    rw [Int.floor_eq_iff]; push_cast; constructor <;> linarith
  rw [this]; simp

/-! ## Lemmas on the word count and the rounded average -/

theorem splitGo_count (inRun : Bool) (cur cs : List Char) (h : inRun = true → cur = []) :
    ((splitGo inRun cur cs).filter fun w => !w.isEmpty).length =
      if cur = [] then countTokens true cs else 1 + countTokens false cs := by
  induction cs generalizing inRun cur with
  | nil =>
    by_cases hc : cur = []
    · simp [splitGo, countTokens, hc]
    · simp [splitGo, countTokens, hc, List.isEmpty_iff]
  | cons c cs ih =>
    by_cases hw : isJsWhitespace c = true
    · cases inRun with
      | true =>
        have hc : cur = [] := h rfl
        rw [splitGo, if_pos hw, if_pos rfl, ih true cur (fun _ => hc)]
        simp [hc, countTokens, hw]
      | false =>
        rw [splitGo, if_pos hw]
        simp only [Bool.false_eq_true, if_false]
        rw [List.filter_cons]
        by_cases hc : cur = []
        · simp [hc, ih true [] (fun _ => rfl), countTokens, hw]
        · simp [hc, List.isEmpty_iff, ih true [] (fun _ => rfl), countTokens, hw]
          omega
    · rw [splitGo, if_neg hw, ih false (cur ++ [c]) (by simp)]
      by_cases hc : cur = []
      · simp [hc, countTokens, hw]
      · simp [hc, countTokens, hw]

theorem wordCount_eq_tokenCount (text : String) : wordCount text = tokenCount text := by
  unfold wordCount splitWhitespace tokenCount
  rw [splitGo_count false [] text.toList (by simp)]
  simp

theorem foldl_words (comments : List Comment) (start : Nat) :
    comments.foldl (fun sum c => sum + wordCount c.text) start =
      start + (comments.map fun c => tokenCount c.text).sum := by
  induction comments generalizing start with
  | nil => simp
  | cons c cs ih =>
    rw [List.foldl_cons, ih, wordCount_eq_tokenCount]
    simp [Nat.add_assoc]

theorem totalWords_eq (comments : List Comment) :
    totalWords comments = (comments.map fun c => tokenCount c.text).sum := by
  unfold totalWords
  rw [foldl_words]
  simp

theorem abs_roundHalfEven_sub_le (t : ℚ) : |(roundHalfEven t : ℚ) - t| ≤ 1 / 2 := by
  have h1 := Int.floor_le t
  have h2 := Int.lt_floor_add_one t
  unfold roundHalfEven
  simp only
  rw [abs_le]
  split_ifs <;> push_cast <;> constructor <;> linarith

/-- The rounding error of `toDouble` is at most half the spacing. -/
theorem abs_toDouble_sub_le (q : ℚ) : |toDouble q - q| ≤ ulp q / 2 := by
  unfold toDouble
  split_ifs with h0
  · rw [h0]; simp; exact (half_pos (ulp_pos 0)).le
  · have hu := ulp_pos q
    have h := abs_roundHalfEven_sub_le (q / ulp q)
    have e : (roundHalfEven (q / ulp q) : ℚ) * ulp q - q
        = ((roundHalfEven (q / ulp q) : ℚ) - q / ulp q) * ulp q := by
      field_simp
    rw [e, abs_mul, abs_of_pos hu]
    calc |(roundHalfEven (q / ulp q) : ℚ) - q / ulp q| * ulp q ≤ 1 / 2 * ulp q :=
          mul_le_mul_of_nonneg_right h hu.le
      _ = ulp q / 2 := by ring

/-- In the normal range the spacing is at most `2 ^ (-52)` times the magnitude. -/
theorem ulp_le_of_normal {q : ℚ} (h : (2 : ℚ) ^ (-1022 : ℤ) ≤ |q|) :
    ulp q ≤ |q| * (2 : ℚ) ^ (-52 : ℤ) := by
  have hpos : 0 < |q| := lt_of_lt_of_le (by positivity) h
  have hlog : (-1022 : ℤ) ≤ Int.log 2 |q| :=
    (Int.zpow_le_iff_le_log (by norm_num) hpos).mp (by exact_mod_cast h)
  have hle : ((2 : ℕ) : ℚ) ^ Int.log 2 |q| ≤ |q| := Int.zpow_log_le_self (by norm_num) hpos
  unfold ulp binadeExp
  rw [max_eq_left hlog, sub_eq_add_neg, zpow_add₀ (by norm_num : (2 : ℚ) ≠ 0)]
  exact mul_le_mul_of_nonneg_right (by exact_mod_cast hle) (by positivity)

/-- For a quotient of naturals within range, `toFixed(2)` of the binary64 quotient
is a hundredth nearest to the exact quotient. -/
theorem toFixed2_quotient (W N : ℕ) (hN : 0 < N) (hN' : N < 2 ^ 32) (hW : W < 2 ^ 45) :
    ∃ n : ℕ, toFixed2 (.fin (toDouble ((W : ℚ) / (N : ℚ)))) = .dec false n ∧
      |(n : ℚ) / 100 - (W : ℚ) / (N : ℚ)| ≤ 1 / 200 := by
  have hNq : (0 : ℚ) < N := by exact_mod_cast hN
  have hNq' : (N : ℚ) < 2 ^ 32 := by exact_mod_cast hN'
  have hWq : (W : ℚ) < 2 ^ 45 := by exact_mod_cast hW
  have hW0 : (0 : ℚ) ≤ W := by positivity
  set q : ℚ := (W : ℚ) / (N : ℚ) with hq
  have hq0 : 0 ≤ q := div_nonneg hW0 hNq.le
  have hqW : q ≤ W := by
    rw [hq, div_le_iff₀ hNq]
    have : (1 : ℚ) ≤ N := by exact_mod_cast hN
    nlinarith
  have hd0 : 0 ≤ toDouble q := toDouble_nonneg hq0
  -- the rounding error, scaled by the divisor
  have herr : (N : ℚ) * |toDouble q - q| ≤ (W : ℚ) * (2 : ℚ) ^ (-53 : ℤ) := by
    rcases Nat.eq_zero_or_pos W with hz | hp
    · have : q = 0 := by rw [hq, hz]; simp
      rw [this, toDouble_zero, hz]; simp
    · have hp' : (1 : ℚ) ≤ W := by exact_mod_cast hp
      have hnorm : (2 : ℚ) ^ (-1022 : ℤ) ≤ |q| := by
        rw [abs_of_nonneg hq0, hq, le_div_iff₀ hNq]
        have h1 : (2 : ℚ) ^ (-1022 : ℤ) * (N : ℚ) ≤ (2 : ℚ) ^ (-1022 : ℤ) * 2 ^ 32 :=
          mul_le_mul_of_nonneg_left hNq'.le (by positivity)
        have h2 : (2 : ℚ) ^ (-1022 : ℤ) * 2 ^ 32 ≤ 1 := by
          rw [show (2 : ℚ) ^ (32 : ℕ) = (2 : ℚ) ^ (32 : ℤ) by norm_cast,
            ← zpow_add₀ (by norm_num : (2 : ℚ) ≠ 0)]
          exact zpow_le_one_of_nonpos₀ (by norm_num) (by norm_num)
        linarith
      have h1 := abs_toDouble_sub_le q
      have h2 := ulp_le_of_normal hnorm
      rw [abs_of_nonneg hq0] at h2
      have h3 : |toDouble q - q| ≤ q * (2 : ℚ) ^ (-53 : ℤ) := by
        have e : q * (2 : ℚ) ^ (-53 : ℤ) = q * (2 : ℚ) ^ (-52 : ℤ) / 2 := by
          rw [show (-53 : ℤ) = -52 + -1 by norm_num, zpow_add₀ (by norm_num : (2 : ℚ) ≠ 0)]
          norm_num
          ring
        rw [e]
        exact h1.trans (div_le_div_of_nonneg_right h2 (by norm_num))
      calc (N : ℚ) * |toDouble q - q| ≤ (N : ℚ) * (q * (2 : ℚ) ^ (-53 : ℤ)) :=
            mul_le_mul_of_nonneg_left h3 hNq.le
        _ = (W : ℚ) * (2 : ℚ) ^ (-53 : ℤ) := by
            rw [hq]; field_simp; ring
  have hsmall : (W : ℚ) * (2 : ℚ) ^ (-53 : ℤ) < 1 / 256 := by
    have h1 : (W : ℚ) * (2 : ℚ) ^ (-53 : ℤ) < 2 ^ 45 * (2 : ℚ) ^ (-53 : ℤ) :=
      mul_lt_mul_of_pos_right hWq (by positivity)
    have h2 : (2 : ℚ) ^ 45 * (2 : ℚ) ^ (-53 : ℤ) = 1 / 256 := by norm_num [zpow_neg]
    rw [h2] at h1
    exact h1
  have hdq : |toDouble q - q| < 1 / 256 := by
    have h1 : (1 : ℚ) ≤ N := by exact_mod_cast hN
    calc |toDouble q - q| ≤ (N : ℚ) * |toDouble q - q| :=
          le_mul_of_one_le_left (abs_nonneg _) h1
      _ ≤ (W : ℚ) * (2 : ℚ) ^ (-53 : ℤ) := herr
      _ < 1 / 256 := hsmall
  have hEN : (N : ℚ) * |toDouble q - q| < 1 / 256 := lt_of_le_of_lt herr hsmall
  have hdlt : toDouble q < (W : ℚ) + 1 := by
    have := abs_lt.mp hdq
    linarith
  -- the shape of the result
  have h21 : ¬ (10 : ℚ) ^ 21 ≤ |toDouble q| := by
    rw [abs_of_nonneg hd0]
    have h45 : (2 : ℚ) ^ 45 + 1 < 10 ^ 21 := by norm_num
    linarith
  refine ⟨nearestHundredths (toDouble q), ?_, ?_⟩
  · simp only [toFixed2, if_neg h21, if_neg (not_lt.mpr hd0)]
  · -- the integer nearest to `100 * d` is within one half of `100 * q`, up to the error
    have hfl := Int.floor_le (100 * toDouble q + 1 / 2)
    have hfl' := Int.lt_floor_add_one (100 * toDouble q + 1 / 2)
    have hnn : 0 ≤ ⌊100 * toDouble q + 1 / 2⌋ := Int.floor_nonneg.mpr (by linarith)
    have hcast : ((nearestHundredths (toDouble q) : ℕ) : ℚ) =
        (⌊100 * toDouble q + 1 / 2⌋ : ℚ) := by
      unfold nearestHundredths
      have : ((⌊100 * toDouble q + 1 / 2⌋.toNat : ℕ) : ℤ) = ⌊100 * toDouble q + 1 / 2⌋ :=
        Int.toNat_of_nonneg hnn
      exact_mod_cast this
    generalize nearestHundredths (toDouble q) = n at hcast ⊢
    generalize toDouble q = d at hEN hfl hfl' hcast
    have hqN : q * N = W := by rw [hq]; field_simp
    -- the error scaled by the divisor, without the absolute value
    have hE1 : (d - q) * N < 1 / 256 := by
      have : (d - q) * N ≤ (N : ℚ) * |d - q| := by
        rw [mul_comm]; exact mul_le_mul_of_nonneg_left (le_abs_self _) hNq.le
      linarith
    have hE2 : -(1 / 256) < (d - q) * N := by
      have : -((N : ℚ) * |d - q|) ≤ (d - q) * N := by
        have := mul_le_mul_of_nonneg_left (neg_abs_le (d - q)) hNq.le
        linarith
      linarith
    have e1 : (n : ℚ) * N ≤ (100 * d + 1 / 2) * N :=
      mul_le_mul_of_nonneg_right (by rw [hcast]; exact hfl) hNq.le
    have e2 : (100 * d + 1 / 2) * N < ((n : ℚ) + 1) * N :=
      mul_lt_mul_of_pos_right (by rw [hcast]; exact hfl') hNq
    have hdN : d * N = (d - q) * N + W := by rw [← hqN]; ring
    -- integrality: `2 * |n * N - 100 * W| ≤ N`
    have hup : (2 * ((n : ℤ) * N - 100 * W) : ℤ) ≤ N := by
      have : ((2 * ((n : ℤ) * N - 100 * W) : ℤ) : ℚ) < ((N : ℤ) : ℚ) + 1 := by
        push_cast
        have e1' : (n : ℚ) * N ≤ 100 * (d * N) + N / 2 := by linarith
        rw [hdN] at e1'
        linarith
      have : (2 * ((n : ℤ) * N - 100 * W) : ℤ) < (N : ℤ) + 1 := by exact_mod_cast this
      omega
    have hlo : -(N : ℤ) ≤ (2 * ((n : ℤ) * N - 100 * W) : ℤ) := by
      have : -(((N : ℤ) : ℚ) + 1) < ((2 * ((n : ℤ) * N - 100 * W) : ℤ) : ℚ) := by
        push_cast
        have e2' : 100 * (d * N) + N / 2 < (n : ℚ) * N + N := by linarith
        rw [hdN] at e2'
        linarith
      have : -((N : ℤ) + 1) < (2 * ((n : ℤ) * N - 100 * W) : ℤ) := by exact_mod_cast this
      omega
    have hupq : (2 * ((n : ℚ) * N - 100 * W)) ≤ N := by exact_mod_cast hup
    have hloq : -(N : ℚ) ≤ (2 * ((n : ℚ) * N - 100 * W)) := by exact_mod_cast hlo
    rw [abs_le]
    have e : (n : ℚ) / 100 - q = ((n : ℚ) * N - 100 * W) / (100 * N) := by
      rw [hq]; field_simp
    rw [e]
    constructor
    · rw [le_div_iff₀ (by positivity)]; linarith
    · rw [div_le_iff₀ (by positivity)]; linarith

theorem countTokens_of_whitespace (afterSpace : Bool) (cs : List Char)
    (h : ∀ c ∈ cs, isJsWhitespace c = true) : countTokens afterSpace cs = 0 := by
  induction cs generalizing afterSpace with
  | nil => rfl
  | cons c cs ih =>
    rw [countTokens, if_pos (h c (List.mem_cons_self _ _))]
    exact ih true fun x hx => h x (List.mem_cons_of_mem _ hx)

theorem nearestHundredths_two : nearestHundredths 2 = 200 := by
  have := nearestHundredths_natCast_div 200
  norm_num at this
  exact this

theorem toFixed2_two : toFixed2 (.fin 2) = .dec false 200 := by
  have h1 : ¬ (10 : ℚ) ^ 21 ≤ |(2 : ℚ)| := by norm_num [abs_of_pos]
  simp only [toFixed2, if_neg h1, nearestHundredths_two]
  norm_num

theorem avgWordLength_eq (comments : List Comment) (scored : List ScoredComment)
    (hne : comments ≠ []) :
    (aggregate comments scored).metrics.avgWordLength =
      toFixed2 (.fin (toDouble
        ((((comments.map fun c => tokenCount c.text).sum : ℕ) : ℚ) / (comments.length : ℚ)))) := by
  have hlen : ¬ comments.length = 0 := by simpa [List.length_eq_zero] using hne
  simp only [aggregate, summaryMetrics, jsDivide, if_neg hlen, totalWords_eq, Int.cast_natCast]

/-! ## Lemmas on the set of author ids -/

theorem mem_foldl_setAdd (l acc : List String) (x : String) :
    x ∈ l.foldl setAdd acc ↔ x ∈ acc ∨ x ∈ l := by
  induction l generalizing acc with
  | nil => simp
  | cons a l ih =>
    rw [List.foldl_cons, ih]
    unfold setAdd
    split_ifs with h
    · constructor
      · rintro (h1 | h1)
        · exact Or.inl h1
        · exact Or.inr (List.mem_cons_of_mem _ h1)
      · rintro (h1 | h1)
        · exact Or.inl h1
        · rcases List.mem_cons.mp h1 with rfl | h2
          · exact Or.inl h
          · exact Or.inr h2
    · simp only [List.mem_append, List.mem_singleton, List.mem_cons]
      tauto

theorem nodup_foldl_setAdd (l acc : List String) (h : acc.Nodup) :
    (l.foldl setAdd acc).Nodup := by
  induction l generalizing acc with
  | nil => simpa using h
  | cons a l ih =>
    rw [List.foldl_cons]
    apply ih
    unfold setAdd
    split_ifs with hm
    · exact h
    · exact List.Nodup.append h (List.nodup_singleton a) (by
        intro x hx hx'
        rw [List.mem_singleton] at hx'
        exact hm (hx' ▸ hx))

theorem uniqueCommenters_eq_card (comments : List Comment) :
    uniqueCommenters comments = (comments.map fun c => c.authorId).toFinset.card := by
  unfold uniqueCommenters
  rw [← List.toFinset_card_of_nodup (nodup_foldl_setAdd _ [] List.nodup_nil)]
  congr 1
  ext x
  simp [mem_foldl_setAdd]

/-! ## Lemmas on the aggregation pass -/

theorem keyOf_of_isLabel {x : ScoredComment} (h : isLabel x.sentiment) :
    keyOf x = "1" ∨ keyOf x = "0" ∨ keyOf x = "-1" := by
  unfold keyOf
  rcases h with h | h | h | h | h | h <;> rw [h] <;> decide

theorem foldl_passStep_counts (scored : List ScoredComment)
    (h : ∀ x ∈ scored, isLabel x.sentiment) (st : PassState) (a b c : Nat)
    (hst : st.sentimentCounts = [("1", some a), ("0", some b), ("-1", some c)]) :
    (scored.foldl passStep st).sentimentCounts =
      [("1", some (a + scored.countP fun x => keyOf x == "1")),
       ("0", some (b + scored.countP fun x => keyOf x == "0")),
       ("-1", some (c + scored.countP fun x => keyOf x == "-1"))] := by
  induction scored generalizing st a b c with
  | nil => simpa using hst
  | cons x xs ih =>
    have hx : isLabel x.sentiment := h x (List.mem_cons_self _ _)
    have hxs : ∀ y ∈ xs, isLabel y.sentiment := fun y hy => h y (List.mem_cons_of_mem _ hy)
    rw [List.foldl_cons]
    rcases keyOf_of_isLabel hx with hk | hk | hk
    · have hk' : propertyKey x.sentiment = "1" := hk
      rw [ih hxs (passStep st x) (a + 1) b c (by
        simp [passStep, hst, hk', incrementKey])]
      simp [List.countP_cons, hk]
      omega
    · have hk' : propertyKey x.sentiment = "0" := hk
      rw [ih hxs (passStep st x) a (b + 1) c (by
        simp [passStep, hst, hk', incrementKey])]
      simp [List.countP_cons, hk]
      omega
    · have hk' : propertyKey x.sentiment = "-1" := hk
      rw [ih hxs (passStep st x) a b (c + 1) (by
        simp [passStep, hst, hk', incrementKey])]
      simp [List.countP_cons, hk]
      omega

theorem countP_labels_sum (scored : List ScoredComment)
    (h : ∀ x ∈ scored, isLabel x.sentiment) :
    (scored.countP fun x => keyOf x == "1") + (scored.countP fun x => keyOf x == "0")
      + (scored.countP fun x => keyOf x == "-1") = scored.length := by
  induction scored with
  | nil => rfl
  | cons x xs ih =>
    have hx : isLabel x.sentiment := h x (List.mem_cons_self _ _)
    have hxs : ∀ y ∈ xs, isLabel y.sentiment := fun y hy => h y (List.mem_cons_of_mem _ hy)
    have := ih hxs
    rcases keyOf_of_isLabel hx with hk | hk | hk <;>
      simp [List.countP_cons, hk] <;> omega

theorem parseInt_of_key_one {x : ScoredComment} (h : keyOf x = "1") :
    parseInt x.sentiment = some 1 := by
  have h' : propertyKey x.sentiment = "1" := h
  unfold parseInt; rw [h']; decide

theorem parseInt_of_key_zero {x : ScoredComment} (h : keyOf x = "0") :
    parseInt x.sentiment = some 0 := by
  have h' : propertyKey x.sentiment = "0" := h
  unfold parseInt; rw [h']; decide

theorem parseInt_of_key_minus_one {x : ScoredComment} (h : keyOf x = "-1") :
    parseInt x.sentiment = some (-1) := by
  have h' : propertyKey x.sentiment = "-1" := h
  unfold parseInt; rw [h']; decide

theorem foldl_passStep_total (scored : List ScoredComment)
    (h : ∀ x ∈ scored, isLabel x.sentiment) (st : PassState) (t : Int)
    (hst : st.totalSentimentScore = some t) :
    (scored.foldl passStep st).totalSentimentScore =
      some (t + (scored.countP fun x => keyOf x == "1")
        - (scored.countP fun x => keyOf x == "-1")) := by
  induction scored generalizing st t with
  | nil => simpa using hst
  | cons x xs ih =>
    have hx : isLabel x.sentiment := h x (List.mem_cons_self _ _)
    have hxs : ∀ y ∈ xs, isLabel y.sentiment := fun y hy => h y (List.mem_cons_of_mem _ hy)
    rw [List.foldl_cons]
    rcases keyOf_of_isLabel hx with hk | hk | hk
    · rw [ih hxs (passStep st x) (t + 1) (by
        simp [passStep, hst, parseInt_of_key_one hk])]
      simp [List.countP_cons, hk]
      omega
    · rw [ih hxs (passStep st x) t (by
        simp [passStep, hst, parseInt_of_key_zero hk])]
      simp [List.countP_cons, hk]
    · rw [ih hxs (passStep st x) (t + -1) (by
        simp [passStep, hst, parseInt_of_key_minus_one hk])]
      simp [List.countP_cons, hk]
      omega

theorem totalSentimentScore_eq (scored : List ScoredComment)
    (h : ∀ x ∈ scored, isLabel x.sentiment) :
    (aggregatePass scored).totalSentimentScore =
      some (((scored.countP fun x => keyOf x == "1") : Int)
        - (scored.countP fun x => keyOf x == "-1")) := by
  unfold aggregatePass
  rw [foldl_passStep_total scored h initialPass 0 rfl]
  simp

/-! ## Lemmas on `toFixed(2)` and the rescaling -/

theorem toFixed2_of_nonneg {d : ℚ} {B : ℕ} (h0 : 0 ≤ d) (h : d ≤ B) (hB : B ≤ 10) :
    ∃ n : ℕ, toFixed2 (.fin d) = .dec false n ∧ n ≤ 100 * B := by
  refine ⟨nearestHundredths d, ?_, nearestHundredths_le h⟩
  have hB' : (B : ℚ) ≤ 10 := by exact_mod_cast hB
  have h1 : ¬ (10 : ℚ) ^ 21 ≤ |d| := by
    rw [abs_of_nonneg h0]; norm_num; linarith
  simp only [toFixed2, if_neg h1, if_neg (not_lt.mpr h0)]

theorem toFixed2_of_neg {d : ℚ} {B : ℕ} (h0 : d < 0) (h : -d ≤ B) (hB : B ≤ 10) :
    toFixed2 (.fin d) = .dec true (nearestHundredths (-d)) ∧
      nearestHundredths (-d) ≤ 100 * B := by
  refine ⟨?_, nearestHundredths_le h⟩
  have hB' : (B : ℚ) ≤ 10 := by exact_mod_cast hB
  have h1 : ¬ (10 : ℚ) ^ 21 ≤ |d| := by
    rw [abs_of_neg h0]; norm_num; linarith
  simp only [toFixed2, if_neg h1, if_pos h0]

/-- The rescaling `((x + 1) / 2) * 10` of a numeral of magnitude at most 1 is a
numeral between 0 and 10. -/
theorem normalized_of_dec (s : Bool) (n : ℕ) (hn : n ≤ 100) :
    ∃ k : ℕ, normalizedSentimentScoreOf (.dec s n) = .dec false k ∧ k ≤ 1000 := by
  set v : ℚ := (if s then -1 else 1) * ((n : ℚ) / 100) with hv
  have hn' : (n : ℚ) ≤ 100 := by exact_mod_cast hn
  have hn0 : (0 : ℚ) ≤ n := by positivity
  have hvabs : |v| ≤ 1 := by
    rw [hv, abs_le]
    cases s <;> simp <;> constructor <;> linarith
  have h2 := abs_le.mp (abs_toDouble_le hvabs isDouble_one)
  set d2 := toDouble v with hd2
  have h3a : 0 ≤ toDouble (d2 + 1) := toDouble_nonneg (by linarith [h2.1])
  have h3b : toDouble (d2 + 1) ≤ 2 :=
    toDouble_le (by norm_num) (by linarith [h2.2]) isDouble_two
  set d3 := toDouble (d2 + 1) with hd3
  have h4a : 0 ≤ toDouble (d3 / 2) := toDouble_nonneg (by linarith)
  have h4b : toDouble (d3 / 2) ≤ 1 :=
    toDouble_le (by norm_num) (by linarith) isDouble_one
  set d4 := toDouble (d3 / 2) with hd4
  have h5a : 0 ≤ toDouble (d4 * 10) := toDouble_nonneg (by linarith)
  have h5b : toDouble (d4 * 10) ≤ ((10 : ℕ) : ℚ) := by
    have := toDouble_le (by norm_num) (by linarith : d4 * 10 ≤ 10) isDouble_ten
    exact_mod_cast this
  obtain ⟨k, hk, hk'⟩ := toFixed2_of_nonneg h5a h5b le_rfl
  refine ⟨k, ?_, by omega⟩
  simp only [normalizedSentimentScoreOf, parseFloat, JsNum.add, JsNum.div, JsNum.mul]
  exact hk

/-- The rounded average of a sum of magnitude at most the (positive) divisor is a
numeral of magnitude at most 1. -/
theorem avg_of_abs_le (t : Int) (N : ℕ) (hN : 0 < N) (ht : |t| ≤ N) :
    ∃ (s : Bool) (n : ℕ), avgSentimentScoreOf (some t) N = .dec s n ∧ n ≤ 100 := by
  have hN' : (0 : ℚ) < N := by exact_mod_cast hN
  have hq : |(t : ℚ) / (N : ℚ)| ≤ 1 := by
    rw [abs_div, abs_of_pos hN', div_le_one hN']
    exact_mod_cast ht
  have hd := abs_le.mp (abs_toDouble_le hq isDouble_one)
  have hdef : avgSentimentScoreOf (some t) N = toFixed2 (.fin (toDouble ((t : ℚ) / (N : ℚ)))) := by
    simp [avgSentimentScoreOf, jsDivide, hN.ne']
  rw [hdef]
  by_cases hneg : toDouble ((t : ℚ) / (N : ℚ)) < 0
  · obtain ⟨h1, h2⟩ := toFixed2_of_neg (B := 1) hneg (by push_cast; linarith [hd.1]) (by norm_num)
    exact ⟨true, _, h1, by omega⟩
  · obtain ⟨n, h1, h2⟩ := toFixed2_of_nonneg (B := 1) (not_lt.mp hneg)
      (by push_cast; exact hd.2) (by norm_num)
    exact ⟨false, n, h1, by omega⟩

theorem abs_total_le (scored : List ScoredComment) (h : ∀ x ∈ scored, isLabel x.sentiment) :
    ∃ t : Int, (aggregatePass scored).totalSentimentScore = some t ∧ |t| ≤ scored.length := by
  refine ⟨_, totalSentimentScore_eq scored h, ?_⟩
  have := countP_labels_sum scored h
  rw [abs_le]
  constructor <;> omega

theorem toDouble_one : toDouble 1 = 1 := toDouble_of_isDouble isDouble_one

theorem toDouble_neg_one : toDouble (-1) = -1 := by rw [toDouble_neg, toDouble_one]

theorem toDouble_two : toDouble 2 = 2 := toDouble_of_isDouble isDouble_two

theorem toDouble_half : toDouble (1 / 2) = 1 / 2 := toDouble_of_isDouble isDouble_half

theorem toDouble_five : toDouble 5 = 5 := toDouble_of_isDouble isDouble_five

theorem toDouble_ten : toDouble 10 = 10 := toDouble_of_isDouble isDouble_ten

theorem nearestHundredths_zero : nearestHundredths 0 = 0 := by
  have := nearestHundredths_natCast_div 0
  simpa using this

theorem nearestHundredths_one : nearestHundredths 1 = 100 := by
  have := nearestHundredths_natCast_div 100
  norm_num at this
  exact this

theorem nearestHundredths_five : nearestHundredths 5 = 500 := by
  have := nearestHundredths_natCast_div 500
  norm_num at this
  exact this

theorem nearestHundredths_ten : nearestHundredths 10 = 1000 := by
  have := nearestHundredths_natCast_div 1000
  norm_num at this
  exact this

theorem toFixed2_zero : toFixed2 (.fin 0) = .dec false 0 := by
  simp [toFixed2, nearestHundredths_zero]

theorem toFixed2_one : toFixed2 (.fin 1) = .dec false 100 := by
  have h1 : ¬ (10 : ℚ) ^ 21 ≤ |1| := by norm_num
  simp only [toFixed2, if_neg h1, nearestHundredths_one]
  norm_num

theorem toFixed2_neg_one : toFixed2 (.fin (-1)) = .dec true 100 := by
  have h1 : ¬ (10 : ℚ) ^ 21 ≤ |(-1 : ℚ)| := by norm_num
  simp only [toFixed2, if_neg h1, neg_neg, nearestHundredths_one]
  norm_num

theorem toFixed2_five : toFixed2 (.fin 5) = .dec false 500 := by
  have h1 : ¬ (10 : ℚ) ^ 21 ≤ |(5 : ℚ)| := by norm_num [abs_of_pos]
  simp only [toFixed2, if_neg h1, nearestHundredths_five]
  norm_num

theorem toFixed2_ten : toFixed2 (.fin 10) = .dec false 1000 := by
  have h1 : ¬ (10 : ℚ) ^ 21 ≤ |(10 : ℚ)| := by norm_num [abs_of_pos]
  simp only [toFixed2, if_neg h1, nearestHundredths_ten]
  norm_num

/-- The rescaling of a numeral denoting zero (`0.00` or `-0.00`) is `5.00`. -/
theorem normalized_of_value_zero (f : Fixed2) (h : f.value = some 0) :
    normalizedSentimentScoreOf f = .dec false 500 := by
  have key : parseFloat f = .fin 0 := by
    cases f with
    | dec s n =>
      have hn : (n : ℚ) = 0 := by
        simp only [Fixed2.value, Option.some.injEq] at h
        cases s <;> simp at h <;> simp [h]
      simp [parseFloat, hn, toDouble_zero]
    | nan => simp [Fixed2.value] at h
    | inf s => simp [Fixed2.value] at h
    | exp q =>
      simp only [Fixed2.value, Option.some.injEq] at h
      simp [parseFloat, h]
  simp only [normalizedSentimentScoreOf, key, JsNum.add, JsNum.div, JsNum.mul, zero_add,
    toDouble_one, toDouble_half]
  norm_num [toDouble_five, toFixed2_five]

theorem normalized_of_minus_one :
    normalizedSentimentScoreOf (.dec true 100) = .dec false 0 := by
  simp only [normalizedSentimentScoreOf, parseFloat, JsNum.add, JsNum.div, JsNum.mul]
  norm_num [toDouble_neg_one, toDouble_zero, toFixed2_zero]

theorem normalized_of_plus_one :
    normalizedSentimentScoreOf (.dec false 100) = .dec false 1000 := by
  simp only [normalizedSentimentScoreOf, parseFloat, JsNum.add, JsNum.div, JsNum.mul]
  norm_num [toDouble_one, toDouble_two, toDouble_ten, toFixed2_ten]

theorem avg_of_all_minus_one (N : ℕ) (hN : 0 < N) :
    avgSentimentScoreOf (some (-(N : Int))) N = .dec true 100 := by
  have hN' : (N : ℚ) ≠ 0 := by exact_mod_cast hN.ne'
  have hq : ((-(N : Int) : Int) : ℚ) / (N : ℚ) = -1 := by
    push_cast; field_simp
  simp only [avgSentimentScoreOf, jsDivide, if_neg hN.ne', hq, toDouble_neg_one,
    toFixed2_neg_one]

theorem avg_of_all_plus_one (N : ℕ) (hN : 0 < N) :
    avgSentimentScoreOf (some (N : Int)) N = .dec false 100 := by
  have hN' : (N : ℚ) ≠ 0 := by exact_mod_cast hN.ne'
  have hq : (((N : Int) : Int) : ℚ) / (N : ℚ) = 1 := by
    push_cast; field_simp
  simp only [avgSentimentScoreOf, jsDivide, if_neg hN.ne', hq, toDouble_one, toFixed2_one]

theorem countP_key_eq_length {scored : List ScoredComment} {k : String}
    (h : ∀ x ∈ scored, keyOf x = k) : (scored.countP fun x => keyOf x == k) = scored.length := by
  rw [List.countP_eq_length]
  intro x hx
  simp [h x hx]

theorem countP_key_eq_zero {scored : List ScoredComment} {k k' : String} (hk : k ≠ k')
    (h : ∀ x ∈ scored, keyOf x = k) : (scored.countP fun x => keyOf x == k') = 0 := by
  rw [List.countP_eq_zero]
  intro x hx
  simp [h x hx, hk]

/-- The model reproduces the binary64 value of `0.1`. -/
theorem toDouble_one_tenth :
    toDouble (1 / 10) = 3602879701896397 / 36028797018963968 := by
  have he : binadeExp (1 / 10) = -4 :=
    binadeExp_eq (by norm_num [abs_of_pos]) (by norm_num [abs_of_pos]) (by norm_num)
  have hu : ulp (1 / 10) = 1 / 72057594037927936 := by
    unfold ulp; rw [he]; norm_num
  have hf : ⌊(1 / 10 : ℚ) / (1 / 72057594037927936)⌋ = 7205759403792793 := by
    rw [Int.floor_eq_iff]; norm_num
  have hr : roundHalfEven ((1 / 10 : ℚ) / (1 / 72057594037927936)) = 7205759403792794 := by
    unfold roundHalfEven
    simp only [hf]
    norm_num
  unfold toDouble
  rw [if_neg (by norm_num), hu, hr]
  norm_num

/-- The sum popup_old.js computes with its own `reduce` is the sum of the pass. -/
theorem totalSentimentScoreOld_eq (predictions : List ScoredComment) :
    totalSentimentScoreOld predictions = (aggregatePass predictions).totalSentimentScore := by
  unfold totalSentimentScoreOld aggregatePass
  have key : ∀ (l : List ScoredComment) (st : PassState),
      l.foldl (fun sum item => do
        let t ← sum
        let v ← parseInt item.sentiment
        pure (t + v)) st.totalSentimentScore = (l.foldl passStep st).totalSentimentScore := by
    intro l
    induction l with
    | nil => intro st; rfl
    | cons x xs ih =>
      intro st
      rw [List.foldl_cons, List.foldl_cons, ← ih (passStep st x)]
      rfl
  exact key predictions initialPass

/-- Both versions of the classifier client return the same value and append the
same fragment; they differ in the logged message only. -/
theorem getSentimentPredictionsOld_eq (resp : PredictResponse) :
    (getSentimentPredictionsOld resp).predictions = (getSentimentPredictions resp).predictions ∧
    (getSentimentPredictionsOld resp).out = (getSentimentPredictions resp).out := by
  cases resp <;> exact ⟨rfl, rfl⟩

/-! ## Lemmas on `fetchComments` -/

theorem pushItems_of_all_isSome (acc : List Comment) (items : List (Option RawSnippet))
    (h : items.all Option.isSome = true) :
    pushItems acc items = (acc ++ items.filterMap fun i => i.map toComment, false) := by
  induction items generalizing acc with
  | nil => simp [pushItems]
  | cons i rest ih =>
    cases i with
    | none => simp at h
    | some s =>
      simp only [List.all_cons, Option.isSome_some, Bool.true_and] at h
      simp [pushItems, ih _ h]

theorem pushItems_length_le (acc : List Comment) (items : List (Option RawSnippet)) :
    (pushItems acc items).1.length ≤ acc.length + items.length := by
  induction items generalizing acc with
  | nil => simp [pushItems]
  | cons i rest ih =>
    cases i with
    | none => simp [pushItems]
    | some s =>
      have := ih (acc ++ [toComment s])
      simp only [pushItems, List.length_cons]
      simp only [List.length_append, List.length_singleton] at this
      omega

/-- One turn of the loop on a readable page: the records of the page are appended. -/
theorem pushed_of_readable (acc : List Comment) (p : Page) (h : p.readable = true) :
    (match p.items with
      | some items => pushItems acc items
      | none => (acc, false)) = (acc ++ p.records, false) := by
  unfold Page.readable at h
  unfold Page.records
  cases hi : p.items with
  | none => simp
  | some items =>
    rw [hi] at h
    simp only
    exact pushItems_of_all_isSome acc items h

/-- One turn of the loop on a readable page that leads on. -/
theorem fetchLoop_step (api : Nat → Response) (fuel k : Nat) (tok : String)
    (acc : List Comment) (reqs : List String) (p : Page)
    (hapi : api k = .ok p) (hr : p.readable = true) (hn : p.hasNext = true)
    (hcap : acc.length < MAX_COMMENTS) :
    ∃ next : String,
      fetchLoop api (fuel + 1) k tok acc reqs =
        fetchLoop api fuel (k + 1) next (acc ++ p.records) (reqs ++ [tok]) := by
  unfold Page.hasNext at hn
  cases ht : p.nextPageToken with
  | none => rw [ht] at hn; simp at hn
  | some t =>
    rw [ht] at hn
    have hne : t ≠ "" := by simpa using hn
    refine ⟨t, ?_⟩
    rw [fetchLoop, if_pos hcap, hapi]
    simp only [pushed_of_readable acc p hr, ht, if_neg hne]
    simp

/-- The turns of the loop over pages that all lead on, while the cap is not
reached before any of the requests. -/
theorem fetchLoop_leadsOn (api : Nat → Response) (pages : List Page) (fuel k : Nat)
    (tok : String) (acc : List Comment) (reqs : List String)
    (hapi : ∀ i p, pages[i]? = some p → api (k + i) = .ok p)
    (hlead : leadsOn pages = true)
    (hcap : acc.length + (allRecords pages).length < MAX_COMMENTS) :
    ∃ (next : String) (reqs' : List String),
      reqs'.length = reqs.length + pages.length ∧
      fetchLoop api (fuel + pages.length) k tok acc reqs =
        fetchLoop api fuel (k + pages.length) next (acc ++ allRecords pages) reqs' := by
  induction pages generalizing k tok acc reqs with
  | nil => exact ⟨tok, reqs, by simp, by simp [allRecords]⟩
  | cons p rest ih =>
    simp only [leadsOn, List.all_cons, Bool.and_eq_true] at hlead
    obtain ⟨⟨hr, hn⟩, hrest⟩ := hlead
    have hall : allRecords (p :: rest) = p.records ++ allRecords rest := by
      simp [allRecords]
    rw [hall, List.length_append] at hcap
    obtain ⟨next, hstep⟩ := fetchLoop_step api (fuel + rest.length) k tok acc reqs p
      (by simpa using hapi 0 p (by simp)) hr hn (by omega)
    obtain ⟨next', reqs', hlen, hrec⟩ := ih (k + 1) next (acc ++ p.records) (reqs ++ [tok])
      (fun i q hq => by
        have := hapi (i + 1) q (by simpa using hq)
        rw [← this]; congr 1; omega)
      (by simpa [leadsOn] using hrest)
      (by rw [List.length_append]; omega)
    refine ⟨next', reqs', by simp at hlen ⊢; omega, ?_⟩
    have e1 : fuel + (p :: rest).length = fuel + rest.length + 1 := by simp; omega
    have e2 : k + (p :: rest).length = k + 1 + rest.length := by simp; omega
    rw [e1, hstep, hrec, e2, hall, List.append_assoc]

theorem allRecords_cons (p : Page) (rest : List Page) :
    allRecords (p :: rest) = p.records ++ allRecords rest := by
  simp [allRecords]

/-- The last turn of the loop: a readable page without `nextPageToken`. -/
theorem fetchLoop_last (api : Nat → Response) (fuel k : Nat) (tok : String)
    (acc : List Comment) (reqs : List String) (p : Page)
    (hapi : api k = .ok p) (hr : p.readable = true) (hn : p.nextPageToken = none)
    (hcap : acc.length < MAX_COMMENTS) :
    fetchLoop api (fuel + 1) k tok acc reqs =
      some { comments := acc ++ p.records, requests := reqs ++ [tok], out := [] } := by
  rw [fetchLoop, if_pos hcap, hapi]
  simp only [pushed_of_readable acc p hr, hn]
  simp

/-- The loop condition fails: the accumulated array is returned as it is. -/
theorem fetchLoop_cap (api : Nat → Response) (fuel k : Nat) (tok : String)
    (acc : List Comment) (reqs : List String) (hcap : ¬ acc.length < MAX_COMMENTS) :
    fetchLoop api (fuel + 1) k tok acc reqs =
      some { comments := acc, requests := reqs, out := [] } := by
  rw [fetchLoop, if_neg hcap]

theorem fetchLoop_chain (api : Nat → Response) (pages : List Page) (fuel k : Nat)
    (tok : String) (acc : List Comment) (reqs : List String)
    (hapi : ∀ i p, pages[i]? = some p → api (k + i) = .ok p)
    (hchain : isChain pages = true)
    (hcap : acc.length + (allRecords pages).length ≤ MAX_COMMENTS)
    (hfuel : pages.length ≤ fuel) :
    ∃ r, fetchLoop api fuel k tok acc reqs = some r ∧
      r.comments = acc ++ allRecords pages ∧ r.out = [] ∧
      r.requests.length ≤ reqs.length + pages.length := by
  induction pages generalizing fuel k tok acc reqs with
  | nil => simp [isChain] at hchain
  | cons p rest ih =>
    obtain ⟨f, rfl⟩ : ∃ f, fuel = f + 1 := ⟨fuel - 1, by simp at hfuel; omega⟩
    have hp : api k = .ok p := by simpa using hapi 0 p (by simp)
    by_cases hlt : acc.length < MAX_COMMENTS
    · cases rest with
      | nil =>
        simp only [isChain, Bool.and_eq_true, beq_iff_eq] at hchain
        refine ⟨_, fetchLoop_last api f k tok acc reqs p hp hchain.1 hchain.2 hlt, ?_, rfl, ?_⟩
        · simp [allRecords]
        · simp
      | cons q rest =>
        simp only [isChain, Bool.and_eq_true] at hchain
        obtain ⟨⟨hr, hn⟩, hrest⟩ := hchain
        obtain ⟨next, hstep⟩ := fetchLoop_step api f k tok acc reqs p hp hr hn hlt
        rw [allRecords_cons, List.length_append] at hcap
        obtain ⟨r, h1, h2, h3, h4⟩ := ih f (k + 1) next (acc ++ p.records) (reqs ++ [tok])
          (fun i x hx => by
            have := hapi (i + 1) x (by simpa using hx)
            rw [← this]; congr 1; omega)
          hrest (by rw [List.length_append]; omega) (by simp at hfuel ⊢; omega)
        refine ⟨r, by rw [hstep]; exact h1, ?_, h3, ?_⟩
        · simp [h2, allRecords_cons]
        · simp at h4 ⊢; omega
    · have hnil : allRecords (p :: rest) = [] := by
        apply List.eq_nil_of_length_eq_zero; omega
      refine ⟨_, fetchLoop_cap api f k tok acc reqs hlt, ?_, rfl, ?_⟩
      · simp [hnil]
      · simp

/-- The accumulated array never grows by more than one page past the cap. -/
theorem fetchLoop_length_le (api : Nat → Response) (h : ∀ k, (api k).size ≤ 100)
    (fuel k : Nat) (tok : String) (acc : List Comment) (reqs : List String)
    (hacc : acc.length ≤ MAX_COMMENTS + 99) (r : FetchResult)
    (hr : fetchLoop api fuel k tok acc reqs = some r) :
    r.comments.length ≤ MAX_COMMENTS + 99 := by
  induction fuel generalizing k tok acc reqs with
  | zero => simp [fetchLoop] at hr
  | succ f ih =>
    rw [fetchLoop] at hr
    split_ifs at hr with hlt
    · have hk := h k
      cases hresp : api k with
      | failure =>
        rw [hresp] at hr
        simp only [Option.some.injEq] at hr
        rw [← hr]; exact hacc
      | ok data =>
        rw [hresp] at hr hk
        simp only at hr
        have hpush : (match data.items with
            | some items => pushItems acc items
            | none => (acc, false)).1.length ≤ MAX_COMMENTS + 99 := by
          cases hi : data.items with
          | none => simpa using hacc
          | some items =>
            have h1 := pushItems_length_le acc items
            have h2 : items.length ≤ 100 := by simpa [Response.size, hi] using hk
            simp only
            omega
        split_ifs at hr with hthrew
        · simp only [Option.some.injEq] at hr
          rw [← hr]; exact hpush
        · cases ht : data.nextPageToken with
          | none =>
            rw [ht] at hr
            simp only [Option.some.injEq] at hr
            rw [← hr]; exact hpush
          | some t =>
            rw [ht] at hr
            simp only at hr
            split_ifs at hr with hempty
            · simp only [Option.some.injEq] at hr
              rw [← hr]; exact hpush
            · exact ih _ _ _ _ hpush hr
    · simp only [Option.some.injEq] at hr
      rw [← hr]; exact hacc

theorem fullPage_records_length : fullPage.records.length = 100 := by
  simp [fullPage, Page.records, List.filterMap_replicate]

theorem allRecords_replicate_length (n : Nat) :
    (allRecords (List.replicate n fullPage)).length = 100 * n := by
  induction n with
  | zero => simp [allRecords]
  | succ m ih =>
    rw [List.replicate_succ, allRecords_cons, List.length_append, ih, fullPage_records_length]
    omega

theorem overshoot_prefix_length :
    (allRecords (shortPage :: List.replicate 9 fullPage)).length = 901 := by
  rw [allRecords_cons, List.length_append, allRecords_replicate_length]
  simp [shortPage, Page.records]

/-- On the overshooting stream the loop returns 1001 comments after 11 requests. -/
theorem overshootStream_result :
    ∃ r, fetchComments overshootStream 12 = some r ∧ r.comments.length = 1001 := by
  have hserve : ∀ i p, (shortPage :: List.replicate 9 fullPage)[i]? = some p →
      overshootStream (0 + i) = .ok p := by
    intro i p h
    cases i with
    | zero => simp at h; simp [overshootStream, h]
    | succ j =>
      simp only [List.getElem?_cons_succ] at h
      have := List.getElem?_replicate (a := fullPage) (n := 9) (m := j)
      rw [this] at h
      split_ifs at h
      simp only [Option.some.injEq] at h
      simp [overshootStream, h]
  obtain ⟨next, reqs', _, hrun⟩ := fetchLoop_leadsOn overshootStream
    (shortPage :: List.replicate 9 fullPage) 2 0 "" [] [] hserve (by decide)
    (by rw [overshoot_prefix_length]; decide)
  have hlen : ([] ++ allRecords (shortPage :: List.replicate 9 fullPage)).length = 901 := by
    rw [List.nil_append, overshoot_prefix_length]
  obtain ⟨next', hstep⟩ := fetchLoop_step overshootStream 1
    (0 + (shortPage :: List.replicate 9 fullPage).length) next
    ([] ++ allRecords (shortPage :: List.replicate 9 fullPage)) reqs' fullPage
    (by simp [overshootStream]) (by decide) (by decide) (by rw [hlen]; decide)
  have hlen' : (([] : List Comment) ++ allRecords (shortPage :: List.replicate 9 fullPage)
      ++ fullPage.records).length = 1001 := by
    rw [List.length_append, hlen, fullPage_records_length]
  have hcap := fetchLoop_cap overshootStream 0
    (0 + (shortPage :: List.replicate 9 fullPage).length + 1) next'
    ([] ++ allRecords (shortPage :: List.replicate 9 fullPage) ++ fullPage.records)
    (reqs' ++ [next]) (by rw [hlen']; decide)
  refine ⟨{ comments := [] ++ allRecords (shortPage :: List.replicate 9 fullPage)
      ++ fullPage.records, requests := reqs' ++ [next], out := [] }, ?_, ?_⟩
  · unfold fetchComments
    have e : (12 : Nat) = 2 + (shortPage :: List.replicate 9 fullPage).length := by simp
    rw [e, hrun, hstep]
    exact hcap
  · exact hlen'

theorem overshootStream_size (k : Nat) : (overshootStream k).size ≤ 100 := by
  unfold overshootStream
  split_ifs <;> simp [Response.size, shortPage, fullPage]

/-! ## Lemmas on the pipeline -/

theorem foldl_passStep_data (scored : List ScoredComment) (st : PassState) :
    (scored.foldl passStep st).sentimentData =
      st.sentimentData ++ scored.map fun x =>
        ({ timestamp := x.timestamp, sentiment := parseInt x.sentiment } : TrendPoint) := by
  induction scored generalizing st with
  | nil => simp
  | cons x xs ih => rw [List.foldl_cons, ih]; simp [passStep]

theorem pipeline_of_success (api : Nat → Response) (classifier : List Comment → PredictResponse)
    (fuel : Nat) (fetched : FetchResult) (predictions : List ScoredComment)
    (hfetch : fetchComments api fuel = some fetched) (hne : fetched.comments ≠ [])
    (hresp : classifier fetched.comments = .success predictions) :
    pipeline api classifier fuel =
      some { out := fetched.out ++ [fetchedMessage fetched.comments.length]
             console := []
             aggregation := some (aggregate fetched.comments predictions) } := by
  have hlen : ¬ fetched.comments.length = 0 := by
    simpa [List.length_eq_zero] using hne
  simp [pipeline, hfetch, hlen, hresp, getSentimentPredictions]

theorem pipeline_of_httpError (api : Nat → Response)
    (classifier : List Comment → PredictResponse) (fuel : Nat) (fetched : FetchResult)
    (status : Nat) (error : Option String)
    (hfetch : fetchComments api fuel = some fetched) (hne : fetched.comments ≠ [])
    (hresp : classifier fetched.comments = .httpError status error) :
    pipeline api classifier fuel =
      some { out := fetched.out ++
               [fetchedMessage fetched.comments.length, predictionErrorMessage]
             console := [error.getD ""]
             aggregation := none } := by
  have hlen : ¬ fetched.comments.length = 0 := by
    simpa [List.length_eq_zero] using hne
  simp [pipeline, hfetch, hlen, hresp, getSentimentPredictions]

/-! ## Lemmas on the number of requests -/

theorem pushItems_length_of_not_threw (acc : List Comment) (items : List (Option RawSnippet))
    (h : (pushItems acc items).2 = false) :
    (pushItems acc items).1.length = acc.length + items.length := by
  induction items generalizing acc with
  | nil => simp [pushItems]
  | cons i rest ih =>
    cases i with
    | none => simp [pushItems] at h
    | some s =>
      simp only [pushItems] at h ⊢
      rw [ih _ h]
      simp
      omega

/-- While every response lets the loop advance, each request adds a comment, so
the loop ends within the cap's worth of requests. -/
theorem fetchLoop_requests_le (api : Nat → Response)
    (hprog : ∀ k, (api k).progresses = true) (fuel k : Nat) (tok : String)
    (acc : List Comment) (reqs : List String)
    (hinv : reqs.length ≤ acc.length) (hreqs : reqs.length ≤ MAX_COMMENTS)
    (hpos : 0 < fuel) (hfuel : MAX_COMMENTS + 1 ≤ fuel + acc.length) :
    ∃ r, fetchLoop api fuel k tok acc reqs = some r ∧ r.requests.length ≤ MAX_COMMENTS := by
  induction fuel generalizing k tok acc reqs with
  | zero => omega
  | succ f ih =>
    rw [fetchLoop]
    split_ifs with hlt
    · have hone : (reqs ++ [tok]).length ≤ MAX_COMMENTS := by
        simp only [List.length_append, List.length_singleton]; omega
      have hk := hprog k
      cases hresp : api k with
      | failure => exact ⟨_, rfl, hone⟩
      | ok data =>
        rw [hresp] at hk
        simp only
        split_ifs with hthrew
        · exact ⟨_, rfl, hone⟩
        · cases ht : data.nextPageToken with
          | none => exact ⟨_, rfl, hone⟩
          | some t =>
            simp only
            split_ifs with hempty
            · exact ⟨_, rfl, hone⟩
            · have hnext : data.hasNext = true := by
                simp [Page.hasNext, ht, hempty]
              have hsize : 1 ≤ (Response.ok data).size := by
                simpa [Response.progresses, hnext] using hk
              have hgrow : acc.length + 1 ≤ (match data.items with
                  | some items => pushItems acc items
                  | none => (acc, false)).1.length := by
                cases hi : data.items with
                | none => simp [Response.size, hi] at hsize
                | some items =>
                  have h2 : (pushItems acc items).2 = false := by
                    simpa [hi] using hthrew
                  have h3 : 1 ≤ items.length := by simpa [Response.size, hi] using hsize
                  simp only
                  rw [pushItems_length_of_not_threw acc items h2]
                  omega
              exact ih (k + 1) t _ (reqs ++ [tok])
                (by simp only [List.length_append, List.length_singleton]; omega) hone
                (by omega) (by omega)
    · exact ⟨_, rfl, hreqs⟩

theorem leadsOn_replicate_emptyPage (n : Nat) :
    leadsOn (List.replicate n emptyPage) = true := by
  simp [leadsOn, List.all_replicate, emptyPage, Page.readable, Page.hasNext]

theorem allRecords_replicate_emptyPage (n : Nat) :
    allRecords (List.replicate n emptyPage) = [] := by
  induction n with
  | zero => rfl
  | succ m ih =>
    rw [List.replicate_succ, allRecords_cons, ih]
    rfl

/-- On the stream of empty pages with a token the loop never ends. -/
theorem fetchLoop_foreverEmpty (fuel k : Nat) (tok : String) (reqs : List String) :
    fetchLoop foreverEmptyStream fuel k tok [] reqs = none := by
  induction fuel generalizing k tok reqs with
  | zero => rfl
  | succ f ih =>
    rw [fetchLoop]
    simp only [foreverEmptyStream, emptyPage, pushItems]
    rw [if_pos (by decide), if_neg (by decide), if_neg (by decide)]
    exact ih _ _ _

/-- On the stalling stream the loop ends after `n + 1` requests. -/
theorem stallingStream_result (n : Nat) :
    ∃ r, fetchComments (stallingStream n) (n + 1) = some r ∧ r.requests.length = n + 1 := by
  have hserve : ∀ i p, (List.replicate n emptyPage)[i]? = some p →
      stallingStream n (0 + i) = .ok p := by
    intro i p h
    rw [List.getElem?_replicate] at h
    split_ifs at h with hi
    simp only [Option.some.injEq] at h
    simp [stallingStream, hi, h]
  obtain ⟨next, reqs', hlen, hrun⟩ := fetchLoop_leadsOn (stallingStream n)
    (List.replicate n emptyPage) 1 0 "" [] [] hserve (leadsOn_replicate_emptyPage _)
    (by rw [allRecords_replicate_emptyPage]; decide)
  rw [allRecords_replicate_emptyPage] at hrun
  simp only [List.length_replicate, List.length_nil, zero_add, List.append_nil] at hrun hlen
  have hlast := fetchLoop_last (stallingStream n) 0 n next [] reqs'
    { items := none, nextPageToken := none } (by simp [stallingStream]) rfl rfl (by decide)
  refine ⟨{ comments := [], requests := reqs' ++ [next], out := [] }, ?_, ?_⟩
  · unfold fetchComments
    rw [Nat.add_comm n 1, hrun]
    exact hlast
  · simp [hlen]

theorem overshootStream_progresses (k : Nat) : (overshootStream k).progresses = true := by
  unfold overshootStream
  split_ifs <;> decide

/-! ## Lemmas on the empty batch -/

theorem reportsToUser_append_noComments (out : List String) :
    reportsToUser (out ++ [noCommentsMessage]) "No comments found." = true := by
  unfold reportsToUser
  rw [List.any_append]
  have : ([noCommentsMessage].any fun fragment => showsText fragment "No comments found.")
      = true := by decide
  rw [this, Bool.or_true]

theorem pipeline_of_empty (api : Nat → Response) (classifier : List Comment → PredictResponse)
    (fuel : Nat) (fetched : FetchResult)
    (hfetch : fetchComments api fuel = some fetched) (hempty : fetched.comments = []) :
    pipeline api classifier fuel =
      some { out := fetched.out ++ [noCommentsMessage], console := [], aggregation := none } := by
  simp [pipeline, hfetch, hempty]

/-- A run that produces an aggregation fetched a non-empty array and aggregated it. -/
theorem pipeline_aggregation (api : Nat → Response)
    (classifier : List Comment → PredictResponse) (fuel : Nat) (fetched : FetchResult)
    (hfetch : fetchComments api fuel = some fetched) (o : Outcome) (a : Aggregation)
    (ho : pipeline api classifier fuel = some o) (ha : o.aggregation = some a) :
    fetched.comments ≠ [] ∧ ∃ predictions, a = aggregate fetched.comments predictions := by
  unfold pipeline at ho
  rw [hfetch] at ho
  simp only at ho
  split_ifs at ho with hlen
  · simp only [Option.some.injEq] at ho
    rw [← ho] at ha
    simp at ha
  · have hne : fetched.comments ≠ [] := by
      intro h; exact hlen (by rw [h]; rfl)
    refine ⟨hne, ?_⟩
    cases hp : (getSentimentPredictions (classifier fetched.comments)).predictions with
    | none =>
      rw [hp] at ho
      simp only [Option.some.injEq] at ho
      rw [← ho] at ha
      simp at ha
    | some predictions =>
      rw [hp] at ho
      simp only [Option.some.injEq] at ho
      rw [← ho] at ha
      simp only [Option.some.injEq] at ha
      exact ⟨predictions, ha.symm⟩

/-! ## Lemmas on the records and the requests of a chain -/

theorem toComment_eq_normalizedRecord (s : RawSnippet) : toComment s = normalizedRecord s := by
  unfold toComment normalizedRecord
  cases h : s.authorChannelId with
  | none => rfl
  | some v =>
    by_cases hv : v = ""
    · simp [hv, Option.filter]
    · simp [hv, Option.filter]

theorem filterMap_map_toComment (items : List (Option RawSnippet)) :
    (items.filterMap fun i => i.map toComment) = (items.filterMap id).map normalizedRecord := by
  induction items with
  | nil => rfl
  | cons i rest ih =>
    cases i with
    | none => simpa using ih
    | some s => simp [ih, toComment_eq_normalizedRecord]

theorem records_eq_map_snippets (p : Page) : p.records = p.snippets.map normalizedRecord := by
  unfold Page.records Page.snippets
  cases p.items with
  | none => rfl
  | some items => exact filterMap_map_toComment items

theorem allSnippets_cons (p : Page) (rest : List Page) :
    allSnippets (p :: rest) = p.snippets ++ allSnippets rest := by
  simp [allSnippets]

theorem allRecords_eq_map_allSnippets (pages : List Page) :
    allRecords pages = (allSnippets pages).map normalizedRecord := by
  induction pages with
  | nil => rfl
  | cons p rest ih =>
    rw [allRecords_cons, allSnippets_cons, List.map_append, ih, records_eq_map_snippets]

theorem filterMap_id_length (items : List (Option RawSnippet))
    (h : items.all Option.isSome = true) : (items.filterMap id).length = items.length := by
  induction items with
  | nil => rfl
  | cons i rest ih =>
    cases i with
    | none => simp at h
    | some s =>
      simp only [List.all_cons, Option.isSome_some, Bool.true_and] at h
      simp [ih h]

theorem snippets_length_of_readable (p : Page) (h : p.readable = true) :
    p.snippets.length = (Response.ok p).size := by
  unfold Page.readable at h
  unfold Page.snippets Response.size
  cases hi : p.items with
  | none => simp [hi]
  | some items =>
    rw [hi] at h
    simp only [hi]
    exact filterMap_id_length items h

theorem allSnippets_length_of_readable (pages : List Page)
    (h : ∀ p ∈ pages, p.readable = true) : (allSnippets pages).length = totalItems pages := by
  induction pages with
  | nil => rfl
  | cons p rest ih =>
    rw [allSnippets_cons, List.length_append,
      snippets_length_of_readable p (h p (List.mem_cons_self _ _)),
      ih fun q hq => h q (List.mem_cons_of_mem _ hq)]
    simp [totalItems]

theorem readable_of_isChain (pages : List Page) (h : isChain pages = true) :
    ∀ p ∈ pages, p.readable = true := by
  induction pages with
  | nil => simp [isChain] at h
  | cons p rest ih =>
    cases rest with
    | nil =>
      simp only [isChain, Bool.and_eq_true] at h
      intro q hq
      rw [List.mem_singleton] at hq
      rw [hq]; exact h.1
    | cons q rest =>
      simp only [isChain, Bool.and_eq_true] at h
      intro x hx
      rcases List.mem_cons.mp hx with rfl | hx
      · exact h.1.1
      · exact ih h.2 x hx

/-- One turn of the loop on a readable page with a non-empty token: the next
request carries that token. -/
theorem fetchLoop_step_token (api : Nat → Response) (fuel k : Nat) (tok : String)
    (acc : List Comment) (reqs : List String) (p : Page)
    (hapi : api k = .ok p) (hr : p.readable = true) (hn : p.hasNext = true)
    (hcap : acc.length < MAX_COMMENTS) :
    fetchLoop api (fuel + 1) k tok acc reqs =
      fetchLoop api fuel (k + 1) p.tokenOut (acc ++ p.records) (reqs ++ [tok]) := by
  unfold Page.hasNext at hn
  unfold Page.tokenOut
  cases ht : p.nextPageToken with
  | none => rw [ht] at hn; simp at hn
  | some t =>
    rw [ht] at hn
    have hne : t ≠ "" := by simpa using hn
    rw [fetchLoop, if_pos hcap, hapi]
    simp only [pushed_of_readable acc p hr, ht, if_neg hne]
    simp

/-- The run of the loop over a well-formed chain, with the requests it sends:
the loop stops before a page only when the cap is reached. -/
theorem fetchLoop_chain_exact (api : Nat → Response) (pages : List Page) (fuel k : Nat)
    (tok : String) (acc : List Comment) (reqs : List String)
    (hapi : ∀ i p, pages[i]? = some p → api (k + i) = .ok p)
    (hchain : isChain pages = true)
    (hcap : acc.length + (allRecords pages).length ≤ MAX_COMMENTS)
    (hfuel : pages.length ≤ fuel) :
    ∃ (r : FetchResult) (j : Nat), fetchLoop api fuel k tok acc reqs = some r ∧
      r.comments = acc ++ allRecords pages ∧ r.out = [] ∧
      j ≤ pages.length ∧
      r.requests = reqs ++ (tok :: pages.map Page.tokenOut).take j ∧
      (j < pages.length → MAX_COMMENTS ≤ acc.length + (allRecords (pages.take j)).length) ∧
      (∀ i, i < j → acc.length + (allRecords (pages.take i)).length < MAX_COMMENTS) := by
  induction pages generalizing fuel k tok acc reqs with
  | nil => simp [isChain] at hchain
  | cons p rest ih =>
    obtain ⟨f, rfl⟩ : ∃ f, fuel = f + 1 := ⟨fuel - 1, by simp at hfuel; omega⟩
    have hp : api k = .ok p := by simpa using hapi 0 p (by simp)
    by_cases hlt : acc.length < MAX_COMMENTS
    · cases rest with
      | nil =>
        simp only [isChain, Bool.and_eq_true, beq_iff_eq] at hchain
        refine ⟨_, 1, fetchLoop_last api f k tok acc reqs p hp hchain.1 hchain.2 hlt, ?_, rfl,
          by simp, by simp, by simp, ?_⟩
        · simp [allRecords]
        · intro i hi
          have : i = 0 := by omega
          subst this
          simpa [allRecords] using hlt
      | cons q rest =>
        simp only [isChain, Bool.and_eq_true] at hchain
        obtain ⟨⟨hr, hn⟩, hrest⟩ := hchain
        have hstep := fetchLoop_step_token api f k tok acc reqs p hp hr hn hlt
        rw [allRecords_cons, List.length_append] at hcap
        obtain ⟨r, j, h1, h2, h3, h4, h5, h6, h7⟩ := ih f (k + 1) p.tokenOut
          (acc ++ p.records) (reqs ++ [tok])
          (fun i x hx => by
            have := hapi (i + 1) x (by simpa using hx)
            rw [← this]; congr 1; omega)
          hrest (by rw [List.length_append]; omega) (by simp at hfuel ⊢; omega)
        refine ⟨r, j + 1, by rw [hstep]; exact h1, ?_, h3, by simp at h4 ⊢; omega, ?_, ?_, ?_⟩
        · simp [h2, allRecords_cons]
        · rw [h5]; simp
        · intro hj
          have := h6 (by simp at hj ⊢; omega)
          rw [List.take_succ_cons, allRecords_cons, List.length_append]
          rw [List.length_append] at this
          omega
        · intro i hi
          cases i with
          | zero => simpa [allRecords] using hlt
          | succ i' =>
            have := h7 i' (by omega)
            rw [List.take_succ_cons, allRecords_cons, List.length_append]
            rw [List.length_append] at this
            omega
    · have hnil : allRecords (p :: rest) = [] := by
        apply List.eq_nil_of_length_eq_zero; omega
      refine ⟨_, 0, fetchLoop_cap api f k tok acc reqs hlt, ?_, rfl, by simp, by simp, ?_, ?_⟩
      · simp [hnil]
      · intro _
        simp only [List.take_zero]
        simp [allRecords]
        omega
      · intro i hi; omega

/-! ## Claims -/

/-- C1: for every sequence `scored` whose sentiments are among -1, 0, 1 (string
or integer), the pass leaves in `sentimentCounts` exactly the keys "1", "0",
"-1", each holding the number of entries of `scored` carrying that label, and
the three values sum to `scored.length`. -/
theorem sentimentCounts_correct (scored : List ScoredComment)
    (h : ∀ x ∈ scored, isLabel x.sentiment) :
    (aggregatePass scored).sentimentCounts.map Prod.fst = ["1", "0", "-1"] ∧
    (∀ k ∈ ["1", "0", "-1"], getKey (aggregatePass scored).sentimentCounts k =
      some (some (scored.countP fun x => propertyKey x.sentiment == k))) ∧
    sumValues (aggregatePass scored).sentimentCounts = some scored.length := by
  have hc := foldl_passStep_counts scored h initialPass 0 0 0 rfl
  have hs := countP_labels_sum scored h
  unfold aggregatePass
  rw [hc]
  refine ⟨rfl, ?_, ?_⟩
  · intro k hk
    simp only [List.mem_cons, List.mem_singleton, List.not_mem_nil, or_false] at hk
    rcases hk with rfl | rfl | rfl <;> simp [getKey, keyOf]
  · simp only [sumValues, Option.bind_eq_bind, Option.some_bind, Option.pure_def, zero_add,
      add_zero]
    congr 1
    omega

/-- C1 at the scenario of the specification: sentiments 1, -1, 0 given as an
integer, a string and an integer. -/
theorem sentimentCounts_correct_witness :
    (∀ x ∈ [(⟨"good video", .int 1, "t1"⟩ : ScoredComment), ⟨"bad", .str "-1", "t2"⟩,
        ⟨"ok fine here", .int 0, "t3"⟩], isLabel x.sentiment) ∧
    sumValues (aggregatePass [(⟨"good video", .int 1, "t1"⟩ : ScoredComment),
        ⟨"bad", .str "-1", "t2"⟩, ⟨"ok fine here", .int 0, "t3"⟩]).sentimentCounts
      = some 3 :=
  ⟨by decide, (sentimentCounts_correct _ (by decide)).2.2⟩

/-- C2: for every non-empty `comments` and every `scored` of the same length with
sentiments among -1, 0, 1, `avgSentimentScore` is a numeral in [-1, 1] and
`normalizedSentimentScore` a numeral in [0, 10]. -/
theorem sentiment_scores_in_range (comments : List Comment) (scored : List ScoredComment)
    (hne : comments ≠ []) (hlen : scored.length = comments.length)
    (h : ∀ x ∈ scored, isLabel x.sentiment) :
    ∃ a n : ℚ,
      (aggregate comments scored).metrics.avgSentimentScore.value = some a ∧
      -1 ≤ a ∧ a ≤ 1 ∧
      (aggregate comments scored).metrics.normalizedSentimentScore.value = some n ∧
      0 ≤ n ∧ n ≤ 10 := by
  obtain ⟨t, ht, habs⟩ := abs_total_le scored h
  have hpos : 0 < comments.length := List.length_pos.mpr hne
  rw [hlen] at habs
  obtain ⟨s, n, hav, hn⟩ := avg_of_abs_le t comments.length hpos habs
  obtain ⟨k, hk, hk'⟩ := normalized_of_dec s n hn
  have hn' : (n : ℚ) ≤ 100 := by exact_mod_cast hn
  have hn0 : (0 : ℚ) ≤ n := by positivity
  have hk1 : (k : ℚ) ≤ 1000 := by exact_mod_cast hk'
  have hk0 : (0 : ℚ) ≤ k := by positivity
  refine ⟨(if s then -1 else 1) * ((n : ℚ) / 100), (k : ℚ) / 100, ?_, ?_, ?_, ?_, ?_, ?_⟩
  · simp only [aggregate, summaryMetrics, ht, hav, Fixed2.value]
  · cases s <;> simp <;> linarith
  · cases s <;> simp <;> linarith
  · simp only [aggregate, summaryMetrics, ht, hav, hk, Fixed2.value]
    simp
  · positivity
  · linarith

/-- C2 at the scenario of the specification: three comments with sentiments
1, -1, 0. -/
theorem sentiment_scores_in_range_witness :
    ∃ a n : ℚ,
      (aggregate [(⟨"good video", "t1", "a"⟩ : Comment), ⟨"bad", "t2", "b"⟩,
          ⟨"ok fine here", "t3", "c"⟩]
        [(⟨"good video", .int 1, "t1"⟩ : ScoredComment), ⟨"bad", .int (-1), "t2"⟩,
          ⟨"ok fine here", .int 0, "t3"⟩]).metrics.avgSentimentScore.value = some a ∧
      -1 ≤ a ∧ a ≤ 1 ∧
      (aggregate [(⟨"good video", "t1", "a"⟩ : Comment), ⟨"bad", "t2", "b"⟩,
          ⟨"ok fine here", "t3", "c"⟩]
        [(⟨"good video", .int 1, "t1"⟩ : ScoredComment), ⟨"bad", .int (-1), "t2"⟩,
          ⟨"ok fine here", .int 0, "t3"⟩]).metrics.normalizedSentimentScore.value = some n ∧
      0 ≤ n ∧ n ≤ 10 :=
  sentiment_scores_in_range _ _ (by simp) (by simp) (by decide)

/-- C3: for every non-empty `comments` and same-length `scored`,
`normalizedSentimentScore` is the numeral 0.00 when every sentiment is -1,
10.00 when every sentiment is 1, and 5.00 whenever the rounded
`avgSentimentScore` denotes 0; it is obtained by rounding the quotient
`sum / totalComments` to two decimals, reading the numeral back, rescaling and
rounding again. -/
theorem normalized_score_exact (comments : List Comment) (scored : List ScoredComment)
    (hne : comments ≠ []) (hlen : scored.length = comments.length) :
    ((∀ x ∈ scored, x.sentiment = .int (-1) ∨ x.sentiment = .str "-1") →
      (aggregate comments scored).metrics.normalizedSentimentScore = .dec false 0) ∧
    ((∀ x ∈ scored, x.sentiment = .int 1 ∨ x.sentiment = .str "1") →
      (aggregate comments scored).metrics.normalizedSentimentScore = .dec false 1000) ∧
    ((aggregate comments scored).metrics.avgSentimentScore.value = some 0 →
      (aggregate comments scored).metrics.normalizedSentimentScore = .dec false 500) ∧
    (aggregate comments scored).metrics.normalizedSentimentScore =
      toFixed2 ((((parseFloat (toFixed2 (jsDivide (aggregatePass scored).totalSentimentScore
        comments.length))).add 1).div 2).mul 10) := by
  have hpos : 0 < comments.length := List.length_pos.mpr hne
  refine ⟨?_, ?_, ?_, rfl⟩
  · intro h
    have hkey : ∀ x ∈ scored, keyOf x = "-1" := by
      intro x hx
      rcases h x hx with e | e <;> simp only [keyOf, e] <;> decide
    have hlab : ∀ x ∈ scored, isLabel x.sentiment := by
      intro x hx
      rcases h x hx with e | e <;> simp [isLabel, e]
    have ht := totalSentimentScore_eq scored hlab
    rw [countP_key_eq_length hkey, countP_key_eq_zero (by decide) hkey, hlen] at ht
    have ht' : (aggregatePass scored).totalSentimentScore = some (-(comments.length : Int)) := by
      rw [ht]; simp
    simp only [aggregate, summaryMetrics, ht', avg_of_all_minus_one _ hpos,
      normalized_of_minus_one]
  · intro h
    have hkey : ∀ x ∈ scored, keyOf x = "1" := by
      intro x hx
      rcases h x hx with e | e <;> simp only [keyOf, e] <;> decide
    have hlab : ∀ x ∈ scored, isLabel x.sentiment := by
      intro x hx
      rcases h x hx with e | e <;> simp [isLabel, e]
    have ht := totalSentimentScore_eq scored hlab
    rw [countP_key_eq_length hkey, countP_key_eq_zero (by decide) hkey, hlen] at ht
    have ht' : (aggregatePass scored).totalSentimentScore = some ((comments.length : Int)) := by
      rw [ht]; simp
    simp only [aggregate, summaryMetrics, ht', avg_of_all_plus_one _ hpos,
      normalized_of_plus_one]
  · intro h
    exact normalized_of_value_zero _ h

/-- C3 at the scenario of the specification: sentiments 1, -1, 0 give
`avgSentimentScore` "0.00" and `normalizedSentimentScore` "5.00". -/
theorem normalized_score_exact_witness :
    ([(⟨"good video", "t1", "a"⟩ : Comment), ⟨"bad", "t2", "b"⟩, ⟨"ok fine here", "t3", "c"⟩]
        ≠ []) ∧
    (aggregate [(⟨"good video", "t1", "a"⟩ : Comment), ⟨"bad", "t2", "b"⟩,
        ⟨"ok fine here", "t3", "c"⟩]
      [(⟨"good video", .int 1, "t1"⟩ : ScoredComment), ⟨"bad", .int (-1), "t2"⟩,
        ⟨"ok fine here", .int 0, "t3"⟩]).metrics.avgSentimentScore.render = "0.00" ∧
    (aggregate [(⟨"good video", "t1", "a"⟩ : Comment), ⟨"bad", "t2", "b"⟩,
        ⟨"ok fine here", "t3", "c"⟩]
      [(⟨"good video", .int 1, "t1"⟩ : ScoredComment), ⟨"bad", .int (-1), "t2"⟩,
        ⟨"ok fine here", .int 0, "t3"⟩]).metrics.normalizedSentimentScore.render = "5.00" := by
  have hav : (aggregate [(⟨"good video", "t1", "a"⟩ : Comment), ⟨"bad", "t2", "b"⟩,
        ⟨"ok fine here", "t3", "c"⟩]
      [(⟨"good video", .int 1, "t1"⟩ : ScoredComment), ⟨"bad", .int (-1), "t2"⟩,
        ⟨"ok fine here", .int 0, "t3"⟩]).metrics.avgSentimentScore = .dec false 0 := by
    have ht : (aggregatePass [(⟨"good video", .int 1, "t1"⟩ : ScoredComment),
        ⟨"bad", .int (-1), "t2"⟩, ⟨"ok fine here", .int 0, "t3"⟩]).totalSentimentScore
        = some 0 := by decide
    simp only [aggregate, summaryMetrics, ht, avgSentimentScoreOf, jsDivide]
    simp [toDouble_zero, toFixed2_zero]
  refine ⟨by simp, ?_, ?_⟩
  · rw [hav]; decide
  · rw [(normalized_score_exact _ _ (by simp) (by simp)).2.2.1 (by rw [hav]; simp [Fixed2.value])]
    decide

/-- C4: for every well-formed chain of pages (each non-final page with a
non-empty `nextPageToken`, the final page with none, no request failing) whose
items total N at most `MAX_COMMENTS`, `fetchComments` returns exactly N
comments, the normalized records of all items in page order then item order
(text, publish timestamp, author channel id or "Unknown"), without reporting an
error. Its requests carry the empty token and then the token of each page in
turn, and it stops before a page only when the cap is reached. A chain of a
single page is read with a single request, whatever its size. -/
theorem fetchComments_returns_all (api : Nat → Response) (pages : List Page) (fuel : Nat)
    (hapi : ∀ i p, pages[i]? = some p → api i = .ok p)
    (hchain : isChain pages = true) (hfuel : pages.length ≤ fuel) :
    (totalItems pages ≤ MAX_COMMENTS →
      ∃ r, fetchComments api fuel = some r ∧
        r.comments = (allSnippets pages).map normalizedRecord ∧
        r.comments.length = totalItems pages ∧
        r.out = [] ∧
        r.requests.length ≤ pages.length ∧
        r.requests = (requestTokens pages).take r.requests.length ∧
        (r.requests.length < pages.length →
          MAX_COMMENTS ≤ totalItems (pages.take r.requests.length)) ∧
        (∀ i, i < r.requests.length → totalItems (pages.take i) < MAX_COMMENTS)) ∧
    (pages.length = 1 →
      fetchComments api fuel =
        some { comments := (allSnippets pages).map normalizedRecord, requests := [""],
               out := [] }) := by
  have hread := readable_of_isChain pages hchain
  have hitems : ∀ n, (allRecords (pages.take n)).length = totalItems (pages.take n) := by
    intro n
    rw [allRecords_eq_map_allSnippets, List.length_map]
    exact allSnippets_length_of_readable _ fun p hp => hread p (List.mem_of_mem_take hp)
  have hall : (allRecords pages).length = totalItems pages := by
    rw [allRecords_eq_map_allSnippets, List.length_map]
    exact allSnippets_length_of_readable _ hread
  constructor
  · intro hcap
    obtain ⟨r, j, h1, h2, h3, h4, h5, h6, h7⟩ := fetchLoop_chain_exact api pages fuel 0 "" [] []
      (fun i p h => by simpa using hapi i p h) hchain (by simpa [hall] using hcap) hfuel
    have hj : r.requests.length = j := by
      rw [h5]
      simp only [List.nil_append, List.length_take, List.length_cons, List.length_map]
      omega
    rw [List.nil_append] at h2 h5
    refine ⟨r, h1, ?_, ?_, h3, by omega, ?_, ?_, ?_⟩
    · rw [h2, allRecords_eq_map_allSnippets]
    · rw [h2, hall]
    · rw [hj]; exact h5
    · intro hlt
      rw [hj] at hlt ⊢
      have := h6 hlt
      rw [hitems] at this
      simpa using this
    · intro i hi
      have := h7 i (by omega)
      rw [hitems] at this
      simpa using this
  · intro hone
    obtain ⟨p, rfl⟩ := List.length_eq_one.mp hone
    obtain ⟨f, rfl⟩ : ∃ f, fuel = f + 1 := ⟨fuel - 1, by simp at hfuel; omega⟩
    simp only [isChain, Bool.and_eq_true, beq_iff_eq] at hchain
    have hp : api 0 = .ok p := hapi 0 p (by simp)
    unfold fetchComments
    rw [fetchLoop_last api f 0 "" [] [] p hp hchain.1 hchain.2 (by decide)]
    simp [allSnippets, records_eq_map_snippets]

/-- C4 on a chain of two pages, of two items and of one item: three records in
order, the second without author channel id, fetched with the tokens "" and
"next". -/
theorem fetchComments_returns_all_witness :
    isChain samplePages = true ∧
    ∃ r, fetchComments (streamOf samplePages) 2 = some r ∧
      r.comments = [⟨"nice", "2024-01-01T00:00:00Z", "UC1"⟩,
        ⟨"first", "2024-01-02T00:00:00Z", "Unknown"⟩,
        ⟨"nice", "2024-01-01T00:00:00Z", "UC1"⟩] ∧
      r.requests = ["", "next"] ∧ r.out = [] := by
  refine ⟨by decide, ?_⟩
  obtain ⟨r, h1, h2, _, h4, h5, h6, h7, _⟩ :=
    (fetchComments_returns_all (streamOf samplePages) samplePages 2
      (fun i p h => by simp [streamOf, h]) (by decide) (by decide)).1 (by decide)
  have hlen : r.requests.length = 2 := by
    have hle : r.requests.length ≤ 2 := h5
    by_contra hne
    have hlt : r.requests.length < samplePages.length := by
      have : samplePages.length = 2 := rfl
      omega
    have hcap := h7 hlt
    have hsmall : totalItems (samplePages.take r.requests.length) ≤ 3 := by
      have : r.requests.length = 0 ∨ r.requests.length = 1 := by omega
      rcases this with e | e <;> rw [e] <;> decide
    unfold MAX_COMMENTS at hcap
    omega
  refine ⟨r, h1, ?_, ?_, h4⟩
  · rw [h2]; decide
  · rw [h6, hlen]; decide

/-- C6: when the requests before the `k`-th are answered by readable pages that
lead on and the `k`-th request fails, `fetchComments` issues no further
request, returns every comment accumulated before the failure and appends the
error fragment to the caller's output element, where the pipeline keeps it. -/
theorem fetchComments_failure (api : Nat → Response) (pages : List Page) (fuel : Nat)
    (hapi : ∀ i p, pages[i]? = some p → api i = .ok p)
    (hlead : leadsOn pages = true)
    (hcap : (allRecords pages).length < MAX_COMMENTS)
    (hfail : api pages.length = .failure)
    (hfuel : pages.length < fuel) :
    (∃ r, fetchComments api fuel = some r ∧ r.comments = allRecords pages ∧
      r.requests.length = pages.length + 1 ∧ r.out = [fetchErrorMessage]) ∧
    (∀ classifier, ∃ o, pipeline api classifier fuel = some o ∧ fetchErrorMessage ∈ o.out) := by
  obtain ⟨f, rfl⟩ : ∃ f, fuel = f + 1 + pages.length := ⟨fuel - 1 - pages.length, by omega⟩
  obtain ⟨next, reqs', hlen, hrun⟩ := fetchLoop_leadsOn api pages (f + 1) 0 "" [] []
    (fun i p h => by simpa using hapi i p h) hlead (by simpa using hcap)
  have hres : fetchComments api (f + 1 + pages.length) =
      some { comments := allRecords pages, requests := reqs' ++ [next],
             out := [fetchErrorMessage] } := by
    unfold fetchComments
    rw [hrun, fetchLoop, if_pos (by simpa using hcap)]
    simp [hfail]
  refine ⟨⟨_, hres, rfl, by simp [hlen], rfl⟩, ?_⟩
  intro classifier
  unfold pipeline
  rw [hres]
  simp only
  split_ifs
  · exact ⟨_, rfl, by simp⟩
  · split <;> exact ⟨_, rfl, by simp⟩

/-- C6 on a stream whose first page holds one item and whose second request fails. -/
theorem fetchComments_failure_witness :
    leadsOn [shortPage] = true ∧ streamOf [shortPage] 1 = .failure ∧
    ∃ r, fetchComments (streamOf [shortPage]) 2 = some r ∧
      r.comments = allRecords [shortPage] ∧ r.requests.length = 2 ∧
      r.out = [fetchErrorMessage] :=
  ⟨by decide, by decide,
    (fetchComments_failure (streamOf [shortPage]) [shortPage] 2
      (fun i p h => by simp [streamOf, h]) (by decide) (by decide) (by decide) (by simp)).1⟩

/-- C8: when every page holds at most 100 items, the array returned by
`fetchComments` has at most `MAX_COMMENTS + 100` elements, and some such
stream makes it return more than `MAX_COMMENTS`. -/
theorem fetchComments_overshoot :
    (∀ (api : Nat → Response) (fuel : Nat) (r : FetchResult),
      (∀ k, (api k).size ≤ 100) → fetchComments api fuel = some r →
        r.comments.length ≤ MAX_COMMENTS + 100) ∧
    (∃ api : Nat → Response, (∀ k, (api k).size ≤ 100) ∧
      ∃ fuel r, fetchComments api fuel = some r ∧ MAX_COMMENTS < r.comments.length) := by
  constructor
  · intro api fuel r h hr
    have := fetchLoop_length_le api h fuel 0 "" [] [] (by simp) r hr
    omega
  · obtain ⟨r, hr, hlen⟩ := overshootStream_result
    exact ⟨overshootStream, overshootStream_size, 12, r, hr, by rw [hlen]; decide⟩

/-- C8 on the stream of a one-item page followed by full pages. -/
theorem fetchComments_overshoot_witness :
    (∀ k, (overshootStream k).size ≤ 100) ∧
    ∃ r, fetchComments overshootStream 12 = some r ∧ r.comments.length ≤ MAX_COMMENTS + 100 := by
  obtain ⟨r, hr, _⟩ := overshootStream_result
  exact ⟨overshootStream_size, r, hr,
    fetchComments_overshoot.1 overshootStream 12 r overshootStream_size hr⟩

/-- C5, as the code has it: on a classification response with a non-success
status and body `{error: m}` the pipeline appends the fixed fragment
"Error fetching sentiment predictions." to the output, passes `m` (the empty
message when the field is absent) to `console.error` only, and computes no
aggregation. -/
theorem classification_failure_outcome (api : Nat → Response)
    (classifier : List Comment → PredictResponse) (fuel : Nat) (fetched : FetchResult)
    (status : Nat) (error : Option String)
    (hfetch : fetchComments api fuel = some fetched) (hne : fetched.comments ≠ [])
    (hresp : classifier fetched.comments = .httpError status error) :
    ∃ o, pipeline api classifier fuel = some o ∧
      o.out = fetched.out ++ [fetchedMessage fetched.comments.length, predictionErrorMessage] ∧
      o.console = [error.getD ""] ∧
      o.aggregation = none :=
  ⟨_, pipeline_of_httpError api classifier fuel fetched status error hfetch hne hresp,
    rfl, rfl, rfl⟩

/-- C5 at HTTP 500 with `{error: "model unavailable"}` after one page of one
comment. -/
theorem classification_failure_outcome_witness :
    ∃ o, pipeline (streamOf [⟨some [some sampleSnippet], none⟩])
        (fun _ => .httpError 500 (some "model unavailable")) 1 = some o ∧
      o.out = [fetchedMessage 1, predictionErrorMessage] ∧
      o.console = ["model unavailable"] ∧
      o.aggregation = none :=
  classification_failure_outcome (streamOf [⟨some [some sampleSnippet], none⟩])
    (fun _ => .httpError 500 (some "model unavailable")) 1
    { comments := [toComment sampleSnippet], requests := [""], out := [] } 500
    (some "model unavailable") (by decide) (by simp) rfl

/-- C5 fails as stated: at HTTP 500 with `{error: "model unavailable"}` no
fragment of the output shows "model unavailable". -/
theorem server_message_not_shown :
    (pipeline (streamOf [⟨some [some sampleSnippet], none⟩])
        (fun _ => .httpError 500 (some "model unavailable")) 1).map
      (fun o => reportsToUser o.out "model unavailable") = some false := by
  decide

/-- C7, as the code has it: the aggregation step never compares the two lengths.
For every non-empty fetched array and every classifier result, of equal length
or not, the pipeline reports no error and produces the aggregation: counts and
trend points from the predictions, `totalComments` from the comments. -/
theorem aggregation_ignores_lengths (api : Nat → Response)
    (classifier : List Comment → PredictResponse) (fuel : Nat) (fetched : FetchResult)
    (predictions : List ScoredComment)
    (hfetch : fetchComments api fuel = some fetched) (hne : fetched.comments ≠ [])
    (hresp : classifier fetched.comments = .success predictions) :
    ∃ o a, pipeline api classifier fuel = some o ∧
      o.out = fetched.out ++ [fetchedMessage fetched.comments.length] ∧
      o.console = [] ∧
      o.aggregation = some a ∧
      a.sentimentCounts = (aggregatePass predictions).sentimentCounts ∧
      a.sentimentData.length = predictions.length ∧
      a.metrics.totalComments = fetched.comments.length :=
  ⟨_, _, pipeline_of_success api classifier fuel fetched predictions hfetch hne hresp,
    rfl, rfl, rfl, rfl, by simp [aggregate, aggregatePass, foldl_passStep_data, initialPass],
    rfl⟩

/-- C7 on two fetched comments and a single prediction. -/
theorem aggregation_ignores_lengths_witness :
    ∃ o a, pipeline (streamOf [⟨some [some sampleSnippet, some sampleSnippet], none⟩])
        (fun _ => .success [⟨"nice", .int 1, "2024-01-01T00:00:00Z"⟩]) 1 = some o ∧
      o.out = [] ++ [fetchedMessage
        ([toComment sampleSnippet, toComment sampleSnippet] : List Comment).length] ∧
      o.console = [] ∧
      o.aggregation = some a ∧
      a.sentimentCounts = (aggregatePass [⟨"nice", .int 1, "2024-01-01T00:00:00Z"⟩]).sentimentCounts ∧
      a.sentimentData.length = [(⟨"nice", .int 1, "2024-01-01T00:00:00Z"⟩ : ScoredComment)].length ∧
      a.metrics.totalComments =
        ([toComment sampleSnippet, toComment sampleSnippet] : List Comment).length :=
  aggregation_ignores_lengths
    (streamOf [⟨some [some sampleSnippet, some sampleSnippet], none⟩])
    (fun _ => .success [⟨"nice", .int 1, "2024-01-01T00:00:00Z"⟩]) 1
    { comments := [toComment sampleSnippet, toComment sampleSnippet], requests := [""],
      out := [] }
    [⟨"nice", .int 1, "2024-01-01T00:00:00Z"⟩] (by decide) (by simp) rfl

/-- C7 fails as stated: with two comments and one prediction the pipeline
reports nothing and produces an aggregation. -/
theorem length_mismatch_not_signalled :
    ([toComment sampleSnippet, toComment sampleSnippet] : List Comment).length ≠
      [(⟨"nice", .int 1, "2024-01-01T00:00:00Z"⟩ : ScoredComment)].length ∧
    (pipeline (streamOf [⟨some [some sampleSnippet, some sampleSnippet], none⟩])
        (fun _ => .success [⟨"nice", .int 1, "2024-01-01T00:00:00Z"⟩]) 1).map
      (fun o => (o.aggregation.isSome, o.out, o.console)) =
      some (true, [fetchedMessage 2], []) := by
  decide

/-- C9: for every non-empty `comments`, `avgWordLength` is `toFixed(2)` of the
quotient of the total number of non-empty whitespace-delimited tokens by
`totalComments`: a hundredth nearest to the exact quotient while the total
stays below `2 ^ 45` (and the array below `2 ^ 32` elements). A single comment
of white space only yields 0.00 and the texts "good video", "bad",
"ok fine here" yield 2.00. -/
theorem avgWordLength_correct (comments : List Comment) (scored : List ScoredComment)
    (hne : comments ≠ []) :
    (aggregate comments scored).metrics.avgWordLength =
      toFixed2 (.fin (toDouble
        ((((comments.map fun c => tokenCount c.text).sum : ℕ) : ℚ) / (comments.length : ℚ)))) ∧
    ((comments.map fun c => tokenCount c.text).sum < 2 ^ 45 → comments.length < 2 ^ 32 →
      ∃ n : ℕ, (aggregate comments scored).metrics.avgWordLength = .dec false n ∧
        |(n : ℚ) / 100 -
          (((comments.map fun c => tokenCount c.text).sum : ℕ) : ℚ) / (comments.length : ℚ)|
          ≤ 1 / 200) ∧
    (∀ c, comments = [c] → (∀ ch ∈ c.text.toList, isJsWhitespace ch = true) →
      (aggregate comments scored).metrics.avgWordLength.render = "0.00") ∧
    (comments.map (fun c => c.text) = ["good video", "bad", "ok fine here"] →
      (aggregate comments scored).metrics.avgWordLength.render = "2.00") := by
  have heq := avgWordLength_eq comments scored hne
  refine ⟨heq, ?_, ?_, ?_⟩
  · intro hW hN
    rw [heq]
    exact toFixed2_quotient _ _ (List.length_pos.mpr hne) hN hW
  · intro c hc hws
    rw [heq, hc]
    have h0 : tokenCount c.text = 0 := countTokens_of_whitespace true _ hws
    simp only [List.map_cons, List.map_nil, List.sum_cons, List.sum_nil, h0]
    norm_num [toDouble_zero, toFixed2_zero]
    decide
  · intro htexts
    have hsum : (comments.map fun c => tokenCount c.text).sum = 6 := by
      have : (comments.map fun c => tokenCount c.text)
          = (comments.map fun c => c.text).map tokenCount := by simp
      rw [this, htexts]
      decide
    have hlen : comments.length = 3 := by
      have := congrArg List.length htexts
      simpa using this
    rw [heq, hsum, hlen]
    norm_num [toDouble_two, toFixed2_two]
    decide

/-- C9 at the scenario of the specification: 2, 1 and 3 words over three
comments. -/
theorem avgWordLength_correct_witness :
    ([(⟨"good video", "t1", "a"⟩ : Comment), ⟨"bad", "t2", "b"⟩, ⟨"ok fine here", "t3", "c"⟩]
        ≠ []) ∧
    (aggregate [(⟨"good video", "t1", "a"⟩ : Comment), ⟨"bad", "t2", "b"⟩,
        ⟨"ok fine here", "t3", "c"⟩] []).metrics.avgWordLength.render = "2.00" :=
  ⟨by simp, (avgWordLength_correct _ [] (by simp)).2.2.2 rfl⟩

/-- C10: `totalComments` is `comments.length` and `uniqueCommenters` is the number
of distinct `authorId` values of `comments`, so it is at most `totalComments`
and at least 1 for a non-empty array; a record whose author channel id is
absent carries the id "Unknown". -/
theorem uniqueCommenters_correct (comments : List Comment) (scored : List ScoredComment) :
    (aggregate comments scored).metrics.totalComments = comments.length ∧
    (aggregate comments scored).metrics.uniqueCommenters =
      (comments.map fun c => c.authorId).toFinset.card ∧
    (aggregate comments scored).metrics.uniqueCommenters ≤
      (aggregate comments scored).metrics.totalComments ∧
    (comments ≠ [] → 1 ≤ (aggregate comments scored).metrics.uniqueCommenters) ∧
    (∀ s : RawSnippet, s.authorChannelId = none → (toComment s).authorId = "Unknown") := by
  have hcard := uniqueCommenters_eq_card comments
  refine ⟨rfl, hcard, ?_, ?_, ?_⟩
  · show uniqueCommenters comments ≤ comments.length
    rw [hcard]
    calc (comments.map fun c => c.authorId).toFinset.card
        ≤ (comments.map fun c => c.authorId).length := List.toFinset_card_le _
      _ = comments.length := List.length_map _ _
  · intro hne
    show 1 ≤ uniqueCommenters comments
    rw [hcard]
    obtain ⟨c, hc⟩ := List.exists_mem_of_ne_nil comments hne
    apply Finset.card_pos.mpr
    exact ⟨c.authorId, by
      rw [List.mem_toFinset]; exact List.mem_map.mpr ⟨c, hc, rfl⟩⟩
  · intro s hs
    simp [toComment, hs]

/-- C10 on three records, two of them without author channel id. -/
theorem uniqueCommenters_correct_witness :
    ([toComment ⟨"a", "t1", none⟩, toComment ⟨"b", "t2", some "UC1"⟩,
        toComment ⟨"c", "t3", none⟩] ≠ []) ∧
    (1 ≤ (aggregate [toComment ⟨"a", "t1", none⟩, toComment ⟨"b", "t2", some "UC1"⟩,
        toComment ⟨"c", "t3", none⟩] []).metrics.uniqueCommenters) ∧
    (aggregate [toComment ⟨"a", "t1", none⟩, toComment ⟨"b", "t2", some "UC1"⟩,
        toComment ⟨"c", "t3", none⟩] []).metrics.uniqueCommenters = 2 :=
  ⟨by simp, (uniqueCommenters_correct _ []).2.2.2.1 (by simp), by decide⟩

/-- C11: for every sequence `scored`, the trend series built by the pass has the
length of `scored` and its i-th entry carries the timestamp of `scored[i]` and
the result of `parseInt` on its sentiment, which is the integer of the label;
the entries stand in the order of the input, whatever the timestamps. -/
theorem sentimentData_correct (comments : List Comment) (scored : List ScoredComment) :
    (aggregate comments scored).sentimentData.length = scored.length ∧
    (aggregate comments scored).sentimentData =
      scored.map (fun x =>
        ({ timestamp := x.timestamp, sentiment := parseInt x.sentiment } : TrendPoint)) ∧
    (∀ (i : Nat) (x : ScoredComment), scored[i]? = some x →
      (aggregate comments scored).sentimentData[i]? =
        some ({ timestamp := x.timestamp, sentiment := parseInt x.sentiment } : TrendPoint)) ∧
    (∀ x : ScoredComment,
      (x.sentiment = .int 1 ∨ x.sentiment = .str "1" → parseInt x.sentiment = some 1) ∧
      (x.sentiment = .int 0 ∨ x.sentiment = .str "0" → parseInt x.sentiment = some 0) ∧
      (x.sentiment = .int (-1) ∨ x.sentiment = .str "-1" →
        parseInt x.sentiment = some (-1))) := by
  have hmap : (aggregate comments scored).sentimentData =
      scored.map (fun x =>
        ({ timestamp := x.timestamp, sentiment := parseInt x.sentiment } : TrendPoint)) := by
    simp [aggregate, aggregatePass, foldl_passStep_data, initialPass]
  refine ⟨by rw [hmap, List.length_map], hmap, ?_, ?_⟩
  · intro i x hx
    rw [hmap, List.getElem?_map, hx]
    rfl
  · intro x
    refine ⟨?_, ?_, ?_⟩ <;> rintro (h | h) <;> rw [h] <;> decide

/-- C11 on three predictions whose timestamps are not in order: the series keeps
the order of the input. -/
theorem sentimentData_correct_witness :
    (aggregate [] [(⟨"good video", .int 1, "2024-03-01T00:00:00Z"⟩ : ScoredComment),
        ⟨"bad", .str "-1", "2024-01-01T00:00:00Z"⟩,
        ⟨"ok fine here", .int 0, "2024-02-01T00:00:00Z"⟩]).sentimentData =
      [⟨"2024-03-01T00:00:00Z", some 1⟩, ⟨"2024-01-01T00:00:00Z", some (-1)⟩,
        ⟨"2024-02-01T00:00:00Z", some 0⟩] ∧
    (aggregate [] [(⟨"good video", .int 1, "2024-03-01T00:00:00Z"⟩ : ScoredComment),
        ⟨"bad", .str "-1", "2024-01-01T00:00:00Z"⟩,
        ⟨"ok fine here", .int 0, "2024-02-01T00:00:00Z"⟩]).sentimentData[1]? =
      some ({ timestamp := "2024-01-01T00:00:00Z", sentiment := parseInt (.str "-1") } :
        TrendPoint) :=
  ⟨(sentimentData_correct [] _).2.1.trans (by decide),
    (sentimentData_correct [] _).2.2.1 1 ⟨"bad", .str "-1", "2024-01-01T00:00:00Z"⟩ rfl⟩

/-- C12, as the code has it: on every stream whose responses all let the loop
advance (each page that carries a non-empty token holds at least one item), the
loop of `fetchComments` ends having issued at most `MAX_COMMENTS` page
requests. -/
theorem fetchComments_request_bound (api : Nat → Response) (fuel : Nat)
    (hprog : ∀ k, (api k).progresses = true) (hfuel : MAX_COMMENTS + 1 ≤ fuel) :
    ∃ r, fetchComments api fuel = some r ∧ r.requests.length ≤ MAX_COMMENTS :=
  fetchLoop_requests_le api hprog fuel 0 "" [] [] (by simp) (by simp)
    (by unfold MAX_COMMENTS at hfuel; omega) (by simpa using hfuel)

/-- C12 on the stream of a one-item page followed by full pages. -/
theorem fetchComments_request_bound_witness :
    (∀ k, (overshootStream k).progresses = true) ∧
    ∃ r, fetchComments overshootStream 1001 = some r ∧ r.requests.length ≤ MAX_COMMENTS :=
  ⟨overshootStream_progresses,
    fetchComments_request_bound overshootStream 1001 overshootStream_progresses (by decide)⟩

/-- C12 fails as stated: after 1001 empty pages that carry a token the loop has
issued 1002 requests, and on a stream of such pages only it never ends. -/
theorem request_count_exceeds_cap :
    (∃ r, fetchComments (stallingStream 1001) 1002 = some r ∧
      MAX_COMMENTS < r.requests.length) ∧
    (∀ fuel, fetchComments foreverEmptyStream fuel = none) := by
  constructor
  · obtain ⟨r, hr, hlen⟩ := stallingStream_result 1001
    exact ⟨r, hr, by rw [hlen]; decide⟩
  · intro fuel
    exact fetchLoop_foreverEmpty fuel 0 "" []

/-- C13: when `fetchComments` returns an empty array the pipeline appends
"No comments found.", does not depend on the classification endpoint and
computes no aggregation; and in every run that computes an aggregation
`totalComments` is positive, so that the two averages are quotients by a
non-zero length. -/
theorem empty_batch_short_circuits (api : Nat → Response)
    (classifier : List Comment → PredictResponse) (fuel : Nat) (fetched : FetchResult)
    (hfetch : fetchComments api fuel = some fetched) :
    (fetched.comments = [] →
      ∃ o, pipeline api classifier fuel = some o ∧
        o.out = fetched.out ++ [noCommentsMessage] ∧
        reportsToUser o.out "No comments found." = true ∧
        o.console = [] ∧ o.aggregation = none ∧
        ∀ other : List Comment → PredictResponse, pipeline api other fuel = some o) ∧
    (∀ o a, pipeline api classifier fuel = some o → o.aggregation = some a →
      0 < a.metrics.totalComments ∧
      a.metrics.totalComments = fetched.comments.length ∧
      ∃ predictions, a = aggregate fetched.comments predictions ∧
        a.metrics.avgWordLength =
          toFixed2 (.fin (toDouble
            (((totalWords fetched.comments : ℕ) : ℚ) / (fetched.comments.length : ℚ)))) ∧
        a.metrics.avgSentimentScore =
          match (aggregatePass predictions).totalSentimentScore with
          | some t => toFixed2 (.fin (toDouble ((t : ℚ) / (fetched.comments.length : ℚ))))
          | none => .nan) := by
  constructor
  · intro hempty
    refine ⟨_, pipeline_of_empty api classifier fuel fetched hfetch hempty, rfl,
      reportsToUser_append_noComments _, rfl, rfl, ?_⟩
    intro other
    exact pipeline_of_empty api other fuel fetched hfetch hempty
  · intro o a ho ha
    obtain ⟨hne, predictions, hagg⟩ := pipeline_aggregation api classifier fuel fetched hfetch
      o a ho ha
    have hpos : 0 < fetched.comments.length := List.length_pos.mpr hne
    have hlen : ¬ fetched.comments.length = 0 := hpos.ne'
    refine ⟨by rw [hagg]; exact hpos, by rw [hagg]; rfl, predictions, hagg, ?_, ?_⟩
    · rw [hagg]
      simp only [aggregate, summaryMetrics, jsDivide, if_neg hlen, Int.cast_natCast]
    · rw [hagg]
      simp only [aggregate, summaryMetrics, avgSentimentScoreOf, jsDivide]
      cases (aggregatePass predictions).totalSentimentScore with
      | none => rfl
      | some t => simp only [if_neg hlen]

/-- C13 on a stream whose first page holds no items and no token. -/
theorem empty_batch_short_circuits_witness :
    ∃ o, pipeline (streamOf [⟨none, none⟩]) (fun _ => .success []) 1 = some o ∧
      o.out = [] ++ [noCommentsMessage] ∧
      reportsToUser o.out "No comments found." = true ∧
      o.console = [] ∧ o.aggregation = none ∧
      ∀ other : List Comment → PredictResponse,
        pipeline (streamOf [⟨none, none⟩]) other 1 = some o :=
  (empty_batch_short_circuits (streamOf [⟨none, none⟩]) (fun _ => .success []) 1
    { comments := [], requests := [""], out := [] } (by decide)).1 rfl

end YtSentiment
